import Mathlib

/-!
# Verification of the Gerrymander repository

Shallow embedding of `src/gerrymander.cpp` / `src/votingmap.cpp`.

Modelling conventions:
* Stanford `Set<int>` is modelled as `Finset Int`; iteration over a Stanford
  set is in ascending order, modelled by `Finset.sort (· ≤ ·)` wherever the
  iteration order is observable.
* C++ `int` is modelled as `Int`; the C++ `/` on `int` (truncation toward
  zero) is written `Int.div` explicitly.
* The `double` population margin is modelled exactly as a rational number
  (`ℚ`); the comparisons `districtPop > mean * (1 + margin)` are carried out
  in `ℚ`.
* Computations that can abort abnormally (a Stanford `error(...)` thrown by
  `VotingMap::getArea` on an unregistered id, a division by zero, or
  `randomInteger(low, high)` with `high < low`) are modelled by `Option`:
  `none` means the C++ run does not return normally.
* The process-wide random source is modelled by an explicit oracle: a list of
  naturals for `randomInteger` draws (a draw in `[lo, hi]` is
  `lo + head % (hi - lo + 1)`) and a list of booleans for `randomBool` draws
  (an exhausted list draws `false`).
-/

/-- `struct Demographic` from `votingmap.h`. -/
structure Demographic where
  dem : Int
  rep : Int
  pop : Int
deriving DecidableEq

/-- `struct Area` from `votingmap.h`. -/
structure Area where
  id : Int
  dem : Int
  rep : Int
  pop : Int
  adjAreas : Finset Int
deriving DecidableEq

/-- The `VotingMap` registry: an association of ids to `Area` records.
`addArea` skips an id that is already present, so the registered areas carry
pairwise distinct ids; we record that invariant in the structure. -/
structure VotingMap where
  areas : List Area
  idsNodup : (areas.map Area.id).Nodup
deriving DecidableEq

/-- `VotingMap::getArea` — `none` models the thrown `error(...)` for an
unregistered id. -/
def VotingMap.getArea (m : VotingMap) (id : Int) : Option Area :=
  m.areas.find? (fun a => a.id = id)

/-- `VotingMap::getDemographic` (the `!cur` branch is dead code in the source:
`getArea` has already thrown). -/
def VotingMap.getDemographic (m : VotingMap) (id : Int) : Option Demographic :=
  (m.getArea id).map (fun a => ⟨a.dem, a.rep, a.pop⟩)

/-- `VotingMap::getAdjacentPrecincts`. -/
def VotingMap.getAdjacentPrecincts (m : VotingMap) (id : Int) : Option (Finset Int) :=
  (m.getArea id).map Area.adjAreas

/-- `VotingMap::totalPop` (the running sum maintained by `addArea`). -/
def VotingMap.totalPop (m : VotingMap) : Int :=
  (m.areas.map Area.pop).sum

/-- `VotingMap::precinctSet`. -/
def VotingMap.precinctSet (m : VotingMap) : Finset Int :=
  (m.areas.map Area.id).toFinset

/-- `VotingMap::contains`. -/
def VotingMap.contains (m : VotingMap) (id : Int) : Bool :=
  m.areas.any (fun a => a.id = id)

/-- `const double POPULATION_MARGIN = 0.2;` (modelled exactly, as a reduced
rational literal so that it evaluates inside the kernel). -/
def POPULATION_MARGIN : ℚ := ⟨1, 5, by decide, by decide⟩

theorem POPULATION_MARGIN_eq : POPULATION_MARGIN = 1 / 5 := by
  rw [show (1 / 5 : ℚ) = ((1 : Int) : ℚ) / ((5 : Nat) : ℚ) by norm_num,
    ← Rat.num_div_den POPULATION_MARGIN]
  rfl

/-- `const int NONE = -1;` — the invalid-score sentinel. -/
def NONE : Int := -1

/-- `Gerrymander::repWasted`. -/
def repWasted (dem rep : Int) : Int :=
  if dem > rep then rep else rep - dem - 1

/-- `Gerrymander::demWasted`. -/
def demWasted (dem rep : Int) : Int :=
  if dem > rep then dem - rep - 1 else dem

/-- Ordered insertion with respect to a boolean comparison — the building
block for modelling the ascending iteration order of Stanford sets. -/
def insBy (le : α → α → Bool) (x : α) : List α → List α
  | [] => [x]
  | y :: ys => if le x y then x :: y :: ys else y :: insBy le x ys

theorem insBy_perm (le : α → α → Bool) (x : α) :
    ∀ l : List α, List.Perm (insBy le x l) (x :: l) := by
  intro l
  induction l with
  | nil => exact List.Perm.refl _
  | cons y ys ih =>
    by_cases h : le x y = true
    · simp [insBy, h]
    · simp only [insBy, h, if_false]
      exact (List.Perm.cons y ih).trans (List.Perm.swap x y ys)

theorem insBy_leftComm (le : α → α → Bool)
    (htot : ∀ a b, le a b = true ∨ le b a = true)
    (htrans : ∀ a b c, le a b = true → le b c = true → le a c = true)
    (hanti : ∀ a b, le a b = true → le b a = true → a = b) :
    ∀ (a b : α) (l : List α),
      insBy le a (insBy le b l) = insBy le b (insBy le a l) := by
  have strict : ∀ (a b : α), le a b = true → ¬le b a = true →
      ∀ l, insBy le a (insBy le b l) = insBy le b (insBy le a l) := by
    intro a b hab hnba l
    induction l with
    | nil => simp [insBy, hab, hnba]
    | cons y ys ih =>
      by_cases hay : le a y = true <;> by_cases hby : le b y = true
      · simp [insBy, hay, hby, hab, hnba]
      · simp [insBy, hay, hby, hnba]
      · exact absurd (htrans b y a hby ((htot a y).resolve_left hay)) hnba
      · simp [insBy, hay, hby, ih]
  intro a b l
  by_cases hab : le a b = true <;> by_cases hba : le b a = true
  · rw [hanti a b hab hba]
  · exact strict a b hab hba l
  · exact (strict b a hba hab l).symm
  · exact absurd (htot a b) (by simp [hab, hba])

/-- Insertion into an ascending list of ints. -/
def intInsert : Int → List Int → List Int :=
  insBy (fun a b => decide (a ≤ b))

instance : LeftCommutative intInsert :=
  ⟨fun a b l => insBy_leftComm _
    (fun x y => by rcases le_total x y with h | h <;> simp [h])
    (fun x y z hx hy => by simp at hx hy ⊢; omega)
    (fun x y hx hy => by simp at hx hy; omega) a b l⟩

/-- `Gerrymander::setToVector` — a Stanford set iterates in ascending order;
the conversion lists the elements ascending. -/
def setToVector (s : Finset Int) : List Int :=
  Multiset.foldr intInsert [] s.val

/-- The element list of `setToVector` is exactly the underlying multiset. -/
theorem foldr_intInsert_coe (m : Multiset Int) :
    ((Multiset.foldr intInsert [] m : List Int) : Multiset Int) = m := by
  induction m using Multiset.induction_on with
  | empty => rfl
  | cons a t ih =>
    rw [Multiset.foldr_cons]
    calc ((intInsert a (Multiset.foldr intInsert [] t) : List Int) : Multiset Int)
        = ((a :: Multiset.foldr intInsert [] t : List Int) : Multiset Int) :=
          Quot.sound (insBy_perm _ a _)
      _ = a ::ₘ t := by rw [← Multiset.cons_coe, ih]

/-- The element list of `setToVector` is exactly the underlying multiset. -/
theorem setToVector_coe (s : Finset Int) :
    (setToVector s : Multiset Int) = s.val :=
  foldr_intInsert_coe s.val

theorem mem_setToVector {s : Finset Int} {x : Int} :
    x ∈ setToVector s ↔ x ∈ s := by
  rw [← Multiset.mem_coe, setToVector_coe]; rfl

theorem setToVector_nodup (s : Finset Int) : (setToVector s).Nodup := by
  have := s.nodup
  rw [← setToVector_coe] at this
  exact this

/-- C1: the wasted-vote helpers satisfy the spec formula: if `d > r` then
`demWasted d r = d - r - 1` and `repWasted d r = r`; otherwise (`d ≤ r`)
`demWasted d r = d` and `repWasted d r = r - d - 1`. -/
theorem wasted_votes_spec_formula :
    ∀ d r : Int,
      (demWasted d r = if d > r then d - r - 1 else d) ∧
      (repWasted d r = if d > r then r else r - d - 1) := by
  intro d r
  constructor <;> rfl

/-- `Gerrymander::isContinuousHelper` — the depth-first walk.  The district
set is threaded through the whole traversal (it is passed by reference in the
source).  `fuel` bounds the recursion depth; `isContinuous` supplies
`district.card + 1`, which is never exhausted (each recursive level beyond a
membership test removes one member).  `none` models an aborted run (fuel
exhaustion, or `getAdjacentPrecincts` throwing on an unregistered id). -/
def dfs (m : VotingMap) : Nat → Finset Int → Int → Option (Finset Int)
  | 0, _, _ => none
  | fuel + 1, district, start =>
    if start ∈ district then
      match m.getAdjacentPrecincts start with
      | none => none
      | some next => (setToVector next).foldlM (dfs m fuel) (district.erase start)
    else some district

/-- `Gerrymander::isContinuous` — runs the walk from `district.first()`
(the least member; Stanford sets are ordered) and reports whether the walk
emptied the district.  `first()` on an empty district throws (`none`). -/
def isContinuous (m : VotingMap) (district : Finset Int) : Option Bool :=
  if h : district.Nonempty then
    (dfs m (district.card + 1) district (district.min' h)).map
      (fun r => decide (r = ∅))
  else none

/-- The population-aggregation loop inside `Gerrymander::isValidPlan`:
sums member populations and removes each member from the coverage set. -/
def popAgg (m : VotingMap) :
    List Int → Int → Finset Int → Option (Int × Finset Int)
  | [], pop, allIDs => some (pop, allIDs)
  | x :: rest, pop, allIDs =>
    match m.getDemographic x with
    | none => none
    | some d => popAgg m rest (pop + d.pop) (allIDs.erase x)

/-- The population of one district, as summed by the validator. -/
def districtPop (m : VotingMap) (district : Finset Int) : Option Int :=
  (popAgg m (setToVector district) 0 district).map Prod.fst

/-- The population-balance rejection test of `Gerrymander::isValidPlan`:
`districtPop > mean * (1 + margin) || districtPop < mean * (1 - margin)`,
in exact rational arithmetic.  The comparison is implemented with the
denominators cleared (so that it evaluates inside the kernel);
`popOutOfBounds_iff` proves it equal to the rational comparison written
exactly as in the source. -/
def popOutOfBounds (mean : Int) (margin : ℚ) (pop : Int) : Bool :=
  decide (pop * (margin.den : Int) > mean * ((margin.den : Int) + margin.num)) ||
    decide (pop * (margin.den : Int) < mean * ((margin.den : Int) - margin.num))

theorem popOutOfBounds_iff (mean : Int) (margin : ℚ) (pop : Int) :
    popOutOfBounds mean margin pop = true ↔
      ((pop : ℚ) > (mean : ℚ) * (1 + margin) ∨
        (pop : ℚ) < (mean : ℚ) * (1 - margin)) := by
  have hd : (0 : ℚ) < (margin.den : ℚ) := by
    exact_mod_cast margin.den_pos
  have hmd : margin * (margin.den : ℚ) = (margin.num : ℚ) := by
    nth_rewrite 1 [← Rat.num_div_den margin]
    exact div_mul_cancel₀ _ (ne_of_gt hd)
  have h1 : ((mean : ℚ) * (1 + margin) < (pop : ℚ)) ↔
      (mean * ((margin.den : Int) + margin.num) < pop * (margin.den : Int)) := by
    rw [← mul_lt_mul_right hd, mul_assoc, add_mul, one_mul, hmd]
    push_cast
    norm_cast
  have h2 : ((pop : ℚ) < (mean : ℚ) * (1 - margin)) ↔
      (pop * (margin.den : Int) < mean * ((margin.den : Int) - margin.num)) := by
    rw [← mul_lt_mul_right hd, mul_assoc, sub_mul, one_mul, hmd]
    push_cast
    norm_cast
  simp only [popOutOfBounds, Bool.or_eq_true, decide_eq_true_eq, gt_iff_lt]
  rw [h1, h2]

/-- Lexicographic comparison of ascending element lists — the order in which
a Stanford `Set<Set<int>>` stores and iterates its member sets. -/
def ilistLE : List Int → List Int → Bool
  | [], _ => true
  | _ :: _, [] => false
  | x :: xs, y :: ys => if x < y then true else if y < x then false else ilistLE xs ys

theorem ilistLE_total : ∀ a b : List Int, ilistLE a b = true ∨ ilistLE b a = true := by
  intro a
  induction a with
  | nil => intro b; left; rfl
  | cons x xs ih =>
    intro b
    cases b with
    | nil => right; rfl
    | cons y ys =>
      by_cases hxy : x < y
      · left; simp [ilistLE, hxy]
      · by_cases hyx : y < x
        · right; simp [ilistLE, hyx, hxy]
        · rcases ih ys with h | h
          · left; simp [ilistLE, hxy, hyx, h]
          · right; simp [ilistLE, hxy, hyx, h]

theorem ilistLE_cons (x y : Int) (xs ys : List Int) :
    ilistLE (x :: xs) (y :: ys) = true ↔
      x < y ∨ (x = y ∧ ilistLE xs ys = true) := by
  simp only [ilistLE]
  by_cases hxy : x < y <;> by_cases hyx : y < x <;> simp [hxy, hyx] <;> omega

theorem ilistLE_trans :
    ∀ a b c : List Int, ilistLE a b = true → ilistLE b c = true → ilistLE a c = true := by
  intro a
  induction a with
  | nil => intro b c _ _; rfl
  | cons x xs ih =>
    intro b c hab hbc
    cases b with
    | nil => simp [ilistLE] at hab
    | cons y ys =>
      cases c with
      | nil => simp [ilistLE] at hbc
      | cons z zs =>
        rw [ilistLE_cons] at hab hbc ⊢
        rcases hab with h1 | ⟨h1, h1'⟩ <;> rcases hbc with h2 | ⟨h2, h2'⟩
        · exact Or.inl (h1.trans h2)
        · exact Or.inl (h2 ▸ h1)
        · exact Or.inl (h1 ▸ h2)
        · exact Or.inr ⟨h1.trans h2, ih ys zs h1' h2'⟩

theorem ilistLE_antisymm :
    ∀ a b : List Int, ilistLE a b = true → ilistLE b a = true → a = b := by
  intro a
  induction a with
  | nil => intro b _ hba; cases b with
    | nil => rfl
    | cons y ys => simp [ilistLE] at hba
  | cons x xs ih =>
    intro b hab hba
    cases b with
    | nil => simp [ilistLE] at hab
    | cons y ys =>
      rw [ilistLE_cons] at hab hba
      rcases hab with h1 | ⟨h1, h1'⟩ <;> rcases hba with h2 | ⟨h2, h2'⟩
      · omega
      · omega
      · omega
      · rw [h1, ih ys h1' h2']

/-- Insertion into a lexicographically ascending list of districts — the
storage order of a Stanford `Set<Set<int>>`. -/
def districtInsert : Finset Int → List (Finset Int) → List (Finset Int) :=
  insBy (fun d e => ilistLE (setToVector d) (setToVector e))

theorem setToVector_inj {d e : Finset Int}
    (h : setToVector d = setToVector e) : d = e := by
  ext x
  rw [← mem_setToVector, ← mem_setToVector (s := e), h]

instance : LeftCommutative districtInsert :=
  ⟨fun a b l => insBy_leftComm
    (fun d e => ilistLE (setToVector d) (setToVector e))
    (fun x y => ilistLE_total _ _)
    (fun x y z hx hy => ilistLE_trans _ _ _ hx hy)
    (fun x y hx hy => setToVector_inj (ilistLE_antisymm _ _ hx hy)) a b l⟩

/-- Iteration over a Stanford `Set<Set<int>>`: member sets in ascending
lexicographic order. -/
def planList (districts : Finset (Finset Int)) : List (Finset Int) :=
  Multiset.foldr districtInsert [] districts.val

theorem planList_coe (districts : Finset (Finset Int)) :
    (planList districts : Multiset (Finset Int)) = districts.val := by
  show ((Multiset.foldr districtInsert [] districts.val : List (Finset Int)) :
    Multiset (Finset Int)) = districts.val
  induction districts.val using Multiset.induction_on with
  | empty => rfl
  | cons a t ih =>
    rw [Multiset.foldr_cons]
    calc ((districtInsert a (Multiset.foldr districtInsert [] t) :
            List (Finset Int)) : Multiset (Finset Int))
        = ((a :: Multiset.foldr districtInsert [] t : List (Finset Int)) :
            Multiset (Finset Int)) := Quot.sound (insBy_perm _ a _)
      _ = a ::ₘ t := by rw [← Multiset.cons_coe, ih]

theorem mem_planList {ds : Finset (Finset Int)} {d : Finset Int} :
    d ∈ planList ds ↔ d ∈ ds := by
  rw [← Multiset.mem_coe, planList_coe]; rfl

/-- The per-district loop of `Gerrymander::isValidPlan`: continuity first,
then population aggregation (with coverage-set removal), then the balance
test; after the loop, `allIDs.isEmpty()`. -/
def validLoop (m : VotingMap) (mean : Int) (margin : ℚ) :
    List (Finset Int) → Finset Int → Option Bool
  | [], allIDs => some (decide (allIDs = ∅))
  | d :: rest, allIDs =>
    match isContinuous m d with
    | none => none
    | some false => some false
    | some true =>
      match popAgg m (setToVector d) 0 allIDs with
      | none => none
      | some (pop, allIDs') =>
        if popOutOfBounds mean margin pop then some false
        else validLoop m mean margin rest allIDs'

/-- `Gerrymander::isValidPlan`.  A plan with `districts.size() == 0` makes
the source divide by zero while computing the mean (undefined behaviour /
crash), modelled as `none`.  `Int.tdiv` is the C++ `int` division
(truncation toward zero). -/
def isValidPlan (m : VotingMap) (districts : Finset (Finset Int)) (margin : ℚ) :
    Option Bool :=
  if districts.card = 0 then none
  else validLoop m (Int.tdiv m.totalPop districts.card) margin
    (planList districts) m.precinctSet

/-- The per-district vote aggregation loop inside
`Gerrymander::howGerrymandered`: sums `dem` and `rep` over the members. -/
def demRepAgg (m : VotingMap) : List Int → Int → Int → Option (Int × Int)
  | [], d, r => some (d, r)
  | x :: rest, d, r =>
    match m.getDemographic x with
    | none => none
    | some dm => demRepAgg m rest (d + dm.dem) (r + dm.rep)

/-- The aggregated `(dem, rep)` vote totals of one district. -/
def districtDemRep (m : VotingMap) (district : Finset Int) : Option (Int × Int) :=
  demRepAgg m (setToVector district) 0 0

/-- The outer loop of `Gerrymander::howGerrymandered`: accumulates
`demWaste`, `repWaste` and `totalVotes` over the districts. -/
def aggregate (m : VotingMap) :
    List (Finset Int) → Int → Int → Int → Option (Int × Int × Int)
  | [], dw, rw, tv => some (dw, rw, tv)
  | d :: rest, dw, rw, tv =>
    match districtDemRep m d with
    | none => none
    | some (dd, rr) =>
      aggregate m rest (dw + demWasted dd rr) (rw + repWasted dd rr)
        (tv + dd + rr)

/-- `Gerrymander::howGerrymandered`.  An invalid plan yields the `NONE`
sentinel; a crashed validation (`none`) propagates; `totalVotes == 0` makes
the final statement divide by zero (undefined behaviour), modelled `none`. -/
def howGerrymandered (m : VotingMap) (districts : Finset (Finset Int)) :
    Option Int :=
  match isValidPlan m districts POPULATION_MARGIN with
  | none => none
  | some false => some NONE
  | some true =>
    match aggregate m (planList districts) 0 0 0 with
    | none => none
    | some (dw, rw, tv) =>
      if tv = 0 then none else some (Int.tdiv (100 * |dw - rw|) tv)

/-- `Gerrymander::isGerrymandered`:
`return howGerrymandered(districts) > margin;`. -/
def isGerrymandered (m : VotingMap) (districts : Finset (Finset Int))
    (margin : Int) : Option Bool :=
  (howGerrymandered m districts).map (fun s => decide (s > margin))

/-- One `randomInteger` draw from the oracle stream (an exhausted stream
draws 0; concrete runs use streams long enough for the execution). -/
def drawNat : List Nat → Nat × List Nat
  | [] => (0, [])
  | k :: rest => (k, rest)

/-- `Gerrymander::demWasted - repWasted` differential for the favored party
(`favorRep = true` maximizes `demWasted - repWasted` and conversely), as
computed inside `createGerrymanderedDistrict`. -/
def wasteDiff (favorRep : Bool) (d r : Int) : Int :=
  if favorRep then demWasted d r - repWasted d r else repWasted d r - demWasted d r

/-- The candidate-selection loop of
`Gerrymander::createGerrymanderedDistrict` (lines 252-273): iterate over the
frontier in ascending order; a candidate still free with a strictly greater
differential replaces the running maximum; an exact tie flips a coin
(`randomBool`) for the replacement. -/
def selectLoop (m : VotingMap) (demo : Demographic) (favorRep : Bool)
    (ids : Finset Int) :
    List Int → Int → Int → List Bool → Option (Int × List Bool)
  | [], _, maxID, coins => some (maxID, coins)
  | c :: rest, maxWaste, maxID, coins =>
    if c ∈ ids then
      match m.getDemographic c with
      | none => none
      | some t =>
        let cw := wasteDiff favorRep (demo.dem + t.dem) (demo.rep + t.rep)
        if cw > maxWaste then selectLoop m demo favorRep ids rest cw c coins
        else if cw = maxWaste then
          match coins with
          | b :: cs =>
            selectLoop m demo favorRep ids rest maxWaste (if b then c else maxID) cs
          | [] => selectLoop m demo favorRep ids rest maxWaste maxID []
        else selectLoop m demo favorRep ids rest maxWaste maxID coins
    else selectLoop m demo favorRep ids rest maxWaste maxID coins

/-- The full selection step: the running maximum starts at the differential
of the district as it currently stands (no candidate added), and the running
choice starts at `adj.first()` — the least frontier id. -/
def selectNext (m : VotingMap) (demo : Demographic) (favorRep : Bool)
    (adj ids : Finset Int) (coins : List Bool) : Option (Int × List Bool) :=
  selectLoop m demo favorRep ids (setToVector adj)
    (wasteDiff favorRep demo.dem demo.rep) ((setToVector adj).headI) coins

/-- `Gerrymander::createGerrymanderedDistrict`.  `fuel` bounds the recursion
depth; callers supply `ids.card + 1`, which the recursion (each level below
the population budget removes one free id) never exhausts. -/
def createGerrymanderedDistrict (m : VotingMap) :
    Nat → Finset Int → Demographic → Int → Int → Bool → Finset Int →
      Finset Int → List Bool →
      Option (Finset Int × Demographic × Finset Int × Finset Int × List Bool)
  | 0, _, _, _, _, _, _, _, _ => none
  | fuel + 1, district, demo, curID, maxPop, favorRep, adj, ids, coins =>
    if demo.pop > maxPop then some (district, demo, adj, ids, coins)
    else
      match m.getDemographic curID, m.getAdjacentPrecincts curID with
      | some cd, some adjSet =>
        let district' := insert curID district
        let demo' : Demographic :=
          ⟨demo.dem + cd.dem, demo.rep + cd.rep, demo.pop + cd.pop⟩
        let ids' := ids.erase curID
        let adj' := (adj ∪ adjSet) ∩ ids'
        if adj' = ∅ then some (district', demo', adj', ids', coins)
        else
          match selectNext m demo' favorRep adj' ids' coins with
          | none => none
          | some (maxID, coins') =>
            createGerrymanderedDistrict m fuel district' demo' maxID maxPop
              favorRep adj' ids' coins'
      | _, _ => none

/-- The `while (!ids.isEmpty())` loop of `Gerrymander::gerrymanderHelper`:
random index into the shrinking candidate vector; a still-free pick seeds a
biased district.  An empty vector with free ids left makes the source call
`randomInteger(0, -1)` (a Stanford error), modelled `none`. -/
def planLoopG (m : VotingMap) (maxPop : Int) (favorRep : Bool) :
    Nat → List Int → Finset (Finset Int) → Finset Int → List Nat → List Bool →
      Option (Finset (Finset Int) × Finset Int × List Nat × List Bool)
  | n, all, districts, ids, rand, coins =>
    if ids = ∅ then some (districts, ids, rand, coins)
    else
      match n, all with
      | _, [] => none
      | 0, _ :: _ => none
      | n' + 1, x :: xs =>
        let a := x :: xs
        let k := (drawNat rand).1
        let rand' := (drawNat rand).2
        let idx := k % a.length
        let chosen := a.getD idx 0
        if chosen ∈ ids then
          match createGerrymanderedDistrict m (ids.card + 1) ∅ ⟨0, 0, 0⟩
              chosen maxPop favorRep ∅ ids coins with
          | none => none
          | some (district, _, _, ids', coins') =>
            planLoopG m maxPop favorRep n' (a.eraseIdx idx)
              (insert district districts) ids' rand' coins'
        else planLoopG m maxPop favorRep n' (a.eraseIdx idx) districts ids
          rand' coins

/-- `Gerrymander::gerrymanderHelper`.  `totalDistricts = 0` makes the source
divide by zero while computing the population budget (undefined behaviour),
modelled `none`. -/
def gerrymanderHelper (m : VotingMap) (totalDistricts : Int) (favorRep : Bool)
    (ids : Finset Int) (rand : List Nat) (coins : List Bool) :
    Option (Finset (Finset Int) × Finset Int × List Nat × List Bool) :=
  if totalDistricts = 0 then none
  else planLoopG m (Int.tdiv m.totalPop totalDistricts) favorRep
    (setToVector ids).length (setToVector ids) ∅ ids rand coins

/-- The `while (!adj.isEmpty())` loop of `Gerrymander::createRandomDistrict`,
generic in the recursive call (`rec`): random index into the shrinking
adjacency vector; a still-free neighbor is recursed into. -/
def randLoop
    (rec : Int → Finset Int → Int → Finset Int → List Nat →
      Option (Finset Int × Int × Finset Int × List Nat)) :
    Nat → List Int → Finset Int → Int → Finset Int → List Nat →
      Option (Finset Int × Int × Finset Int × List Nat)
  | _, [], district, pop, ids, rand => some (district, pop, ids, rand)
  | 0, _ :: _, _, _, _, _ => none
  | n + 1, x :: xs, district, pop, ids, rand =>
    let a := x :: xs
    let k := (drawNat rand).1
    let rand' := (drawNat rand).2
    let idx := k % a.length
    let chosen := a.getD idx 0
    if chosen ∈ ids then
      match rec chosen district pop ids rand' with
      | none => none
      | some (district', pop', ids', rand'') =>
        randLoop rec n (a.eraseIdx idx) district' pop' ids' rand''
    else randLoop rec n (a.eraseIdx idx) district pop ids rand'

/-- `Gerrymander::createRandomDistrict`.  `fuel` bounds the recursion depth;
callers supply `ids.card + 1`, which the recursion (each level below the
population budget removes one free id) never exhausts. -/
def createRandomDistrict (m : VotingMap) :
    Nat → Finset Int → Int → Int → Int → Finset Int → List Nat →
      Option (Finset Int × Int × Finset Int × List Nat)
  | 0, _, _, _, _, _, _ => none
  | fuel + 1, district, curID, districtPop, maxPop, ids, rand =>
    if districtPop ≥ maxPop then some (district, districtPop, ids, rand)
    else
      match m.getDemographic curID, m.getAdjacentPrecincts curID with
      | some dm, some adjSet =>
        randLoop (fun c d p i r => createRandomDistrict m fuel d c p maxPop i r)
          (setToVector adjSet).length (setToVector adjSet)
          (insert curID district) (districtPop + dm.pop)
          (ids.erase curID) rand
      | _, _ => none

/-- The `while (!ids.isEmpty())` loop of
`Gerrymander::createRandomPlanHelper`. -/
def planLoopR (m : VotingMap) (maxPop : Int) :
    Nat → List Int → Finset (Finset Int) → Finset Int → List Nat →
      Option (Finset (Finset Int) × Finset Int × List Nat)
  | n, all, districts, ids, rand =>
    if ids = ∅ then some (districts, ids, rand)
    else
      match n, all with
      | _, [] => none
      | 0, _ :: _ => none
      | n' + 1, x :: xs =>
        let a := x :: xs
        let k := (drawNat rand).1
        let rand' := (drawNat rand).2
        let idx := k % a.length
        let chosen := a.getD idx 0
        if chosen ∈ ids then
          match createRandomDistrict m (ids.card + 1) ∅ chosen 0 maxPop ids
              rand' with
          | none => none
          | some (district, _, ids', rand'') =>
            planLoopR m maxPop n' (a.eraseIdx idx) (insert district districts)
              ids' rand''
        else planLoopR m maxPop n' (a.eraseIdx idx) districts ids rand'

/-- `Gerrymander::createRandomPlanHelper`.  `totalDistricts = 0` makes the
source divide by zero while computing the population budget, modelled
`none`. -/
def createRandomPlanHelper (m : VotingMap) (totalDistricts : Int)
    (ids : Finset Int) (rand : List Nat) :
    Option (Finset (Finset Int) × Finset Int × List Nat) :=
  if totalDistricts = 0 then none
  else planLoopR m (Int.tdiv m.totalPop totalDistricts)
    (setToVector ids).length (setToVector ids) ∅ ids rand

/-- A two-precinct registry (one shared border, one person each, no votes)
used as a concrete evaluation point. -/
def tinyMap : VotingMap :=
  ⟨[⟨1, 0, 0, 1, {2}⟩, ⟨2, 0, 0, 1, {1}⟩], by decide⟩

/-- A three-precinct path `1 - 2 - 3`; only precinct 1 carries a vote. -/
def pathMap : VotingMap :=
  ⟨[⟨1, 1, 0, 1, {2}⟩, ⟨2, 0, 0, 1, {1, 3}⟩, ⟨3, 0, 0, 1, {2}⟩], by decide⟩

/-- Two adjacent precincts with one Democratic and one Republican vote. -/
def pairMap : VotingMap :=
  ⟨[⟨1, 1, 0, 1, {2}⟩, ⟨2, 0, 1, 1, {1}⟩], by decide⟩

/-- Shared fact: a plan the validator rejects at the default margin is scored
with the `NONE` sentinel. -/
theorem howGerrymandered_of_invalid (m : VotingMap)
    (ds : Finset (Finset Int))
    (h : isValidPlan m ds POPULATION_MARGIN = some false) :
    howGerrymandered m ds = some NONE := by
  simp [howGerrymandered, h]

/-- C4: a plan rejected by the validator at the default margin is scored with
the `NONE` sentinel (`-1`, below every valid percentage), not a number and
not an exception. -/
theorem invalid_plan_scores_sentinel :
    NONE < 0 ∧
      ∀ (m : VotingMap) (districts : Finset (Finset Int)),
        isValidPlan m districts POPULATION_MARGIN = some false →
        howGerrymandered m districts = some NONE :=
  ⟨by decide, fun m districts h => howGerrymandered_of_invalid m districts h⟩

/-- C4 witness: the plan `{{1}}` over `tinyMap` leaves precinct 2 uncovered
(and is under-populated); it is rejected and scored `NONE`. -/
theorem invalid_plan_scores_sentinel_witness :
    isValidPlan tinyMap {({1} : Finset Int)} POPULATION_MARGIN = some false ∧
      howGerrymandered tinyMap {({1} : Finset Int)} = some NONE :=
  ⟨by decide,
    invalid_plan_scores_sentinel.2 tinyMap {({1} : Finset Int)} (by decide)⟩

/-- C7: contrary to the spec there is no `InvalidDistrictCount` outcome: a
zero district count reaches an integer division by zero (undefined
behaviour, modelled `none`) in the validator and in both generation entry
points. -/
theorem zero_district_count_crashes :
    isValidPlan tinyMap ∅ POPULATION_MARGIN = none ∧
      gerrymanderHelper tinyMap 0 true {1, 2} [] [] = none ∧
      createRandomPlanHelper tinyMap 0 {1, 2} [] = none :=
  ⟨by decide, by decide, by decide⟩

/-- C2 counterexample: a plan the validator accepts at the default margin,
with total vote count 1 > 0, whose Efficiency Gap score is 200 — outside
[0, 100].  Districts `{2}` and `{3}` have no votes, so each contributes
`repWasted = 0 - 0 - 1 = -1`. -/
theorem efficiency_gap_score_exceeds_100 :
    isValidPlan pathMap {({1} : Finset Int), {2}, {3}} POPULATION_MARGIN =
        some true ∧
      aggregate pathMap (planList {({1} : Finset Int), {2}, {3}}) 0 0 0 =
        some (0, -2, 1) ∧
      howGerrymandered pathMap {({1} : Finset Int), {2}, {3}} = some 200 :=
  ⟨by decide, by decide, by decide⟩

/-- C3 counterexample: at margin 1 the plan `{{1}, {1, 2}}` over `tinyMap`
is accepted although precinct 1 belongs to both (distinct) districts — the
validator only removes ids from its coverage set, so a second assignment is
a silent no-op. -/
theorem double_assignment_accepted :
    isValidPlan tinyMap {({1} : Finset Int), {1, 2}} 1 = some true ∧
      (1 : Int) ∈ ({1} : Finset Int) ∧ (1 : Int) ∈ ({1, 2} : Finset Int) ∧
      ({1} : Finset Int) ≠ {1, 2} ∧
      ({1} : Finset Int) ∈ ({({1} : Finset Int), {1, 2}} : Finset (Finset Int)) ∧
      ({1, 2} : Finset Int) ∈ ({({1} : Finset Int), {1, 2}} : Finset (Finset Int)) :=
  ⟨by decide, by decide, by decide, by decide, by decide, by decide⟩

/-- C8 counterexample: the sentinel `-1` is greater than the threshold `-2`,
so an invalid plan is reported "gerrymandered" at negative thresholds. -/
theorem invalid_plan_gerrymandered_at_negative_threshold :
    isValidPlan tinyMap {({1} : Finset Int)} POPULATION_MARGIN = some false ∧
      isGerrymandered tinyMap {({1} : Finset Int)} (-2) = some true :=
  ⟨by decide, by decide⟩

/-- C8 (amended): `isGerrymandered` returns `score > t` for every plan whose
scoring terminates; a plan rejected at the default margin yields `false` for
every threshold `t ≥ -1` (the sentinel `-1` is not greater than such `t`),
though not for thresholds below `-1`. -/
theorem isGerrymandered_iff_score_gt :
    (∀ (m : VotingMap) (ds : Finset (Finset Int)) (t s : Int),
        howGerrymandered m ds = some s →
        isGerrymandered m ds t = some (decide (s > t))) ∧
      ∀ (m : VotingMap) (ds : Finset (Finset Int)) (t : Int),
        isValidPlan m ds POPULATION_MARGIN = some false → -1 ≤ t →
        isGerrymandered m ds t = some false := by
  constructor
  · intro m ds t s h
    simp [isGerrymandered, h]
  · intro m ds t hv ht
    have hs := howGerrymandered_of_invalid m ds hv
    simp only [isGerrymandered, hs, Option.map_some, NONE, Option.some.injEq]
    simpa using by omega

/-- C8 witness: the under-covering plan `{{1}}` is invalid, and at threshold
0 it is not gerrymandered. -/
theorem isGerrymandered_iff_score_gt_witness :
    isGerrymandered tinyMap {({1} : Finset Int)} 0 = some false :=
  isGerrymandered_iff_score_gt.2 tinyMap {({1} : Finset Int)} 0 (by decide)
    (by decide)

theorem contains_iff_getArea {m : VotingMap} {x : Int} :
    m.contains x = true ↔ (m.getArea x).isSome := by
  simp [VotingMap.contains, VotingMap.getArea, List.find?_isSome,
    List.any_eq_true]

theorem getDemographic_isSome {m : VotingMap} {x : Int} :
    (m.getDemographic x).isSome ↔ m.contains x = true := by
  rw [contains_iff_getArea, VotingMap.getDemographic]
  cases m.getArea x <;> simp

theorem getAdjacentPrecincts_isSome {m : VotingMap} {x : Int} :
    (m.getAdjacentPrecincts x).isSome ↔ m.contains x = true := by
  rw [contains_iff_getArea, VotingMap.getAdjacentPrecincts]
  cases m.getArea x <;> simp

theorem mem_precinctSet_iff {m : VotingMap} {x : Int} :
    x ∈ m.precinctSet ↔ m.contains x = true := by
  simp [VotingMap.precinctSet, VotingMap.contains, List.any_eq_true]

/-- The population of a member list, independent of the accumulator and the
coverage set threaded by `popAgg`. -/
def listPop (m : VotingMap) : List Int → Option Int
  | [] => some 0
  | x :: rest =>
    match m.getDemographic x with
    | none => none
    | some d => (listPop m rest).map (fun s => d.pop + s)

theorem popAgg_eq (m : VotingMap) :
    ∀ (l : List Int) (pop : Int) (A : Finset Int),
      popAgg m l pop A =
        (listPop m l).map (fun s => (pop + s, A \ l.toFinset)) := by
  intro l
  induction l with
  | nil => intro pop A; simp [popAgg, listPop]
  | cons x rest ih =>
    intro pop A
    cases hd : m.getDemographic x with
    | none => simp [popAgg, listPop, hd]
    | some d =>
      simp only [popAgg, listPop, hd]
      rw [ih]
      cases listPop m rest with
      | none => rfl
      | some s =>
        simp only [Option.map_some', Option.some.injEq, Prod.mk.injEq]
        constructor
        · ring
        · ext z
          simp only [Finset.mem_sdiff, Finset.mem_erase, List.toFinset_cons,
            Finset.mem_insert, List.mem_toFinset]
          tauto

theorem districtPop_eq (m : VotingMap) (d : Finset Int) :
    districtPop m d = listPop m (setToVector d) := by
  rw [districtPop, popAgg_eq]
  cases listPop m (setToVector d) with
  | none => rfl
  | some s => simp

theorem listPop_isSome {m : VotingMap} :
    ∀ {l : List Int}, (∀ x ∈ l, m.contains x = true) →
      (listPop m l).isSome := by
  intro l
  induction l with
  | nil => intro _; rfl
  | cons x rest ih =>
    intro h
    have hx := (getDemographic_isSome (m := m) (x := x)).mpr
      (h x (List.mem_cons_self x rest))
    simp only [listPop]
    cases hd : m.getDemographic x with
    | none => rw [hd] at hx; exact absurd hx (by simp)
    | some d =>
      have := ih (fun y hy => h y (List.mem_cons_of_mem x hy))
      cases hl : listPop m rest with
      | none => rw [hl] at this; exact absurd this (by simp)
      | some s => simp

theorem listPop_registered {m : VotingMap} :
    ∀ {l : List Int} {p : Int}, listPop m l = some p →
      ∀ x ∈ l, m.contains x = true := by
  intro l
  induction l with
  | nil => intro p _ x hx; exact absurd hx (List.not_mem_nil x)
  | cons y rest ih =>
    intro p h x hx
    simp only [listPop] at h
    cases hd : m.getDemographic y with
    | none => rw [hd] at h; exact absurd h (by simp)
    | some d =>
      rw [hd] at h
      cases hl : listPop m rest with
      | none => rw [hl] at h; exact absurd h (by simp)
      | some s =>
        rcases List.mem_cons.mp hx with rfl | hx'
        · exact getDemographic_isSome.mp (by rw [hd]; rfl)
        · exact ih hl x hx'

theorem setToVector_toFinset (s : Finset Int) : (setToVector s).toFinset = s := by
  ext x
  simp [List.mem_toFinset, mem_setToVector]

/-- Union of a list of districts (the ids the validator has erased from its
coverage set after processing the list). -/
def listUnion (L : List (Finset Int)) : Finset Int :=
  L.foldr (fun d acc => d ∪ acc) ∅

theorem mem_listUnion {L : List (Finset Int)} {x : Int} :
    x ∈ listUnion L ↔ ∃ d ∈ L, x ∈ d := by
  induction L with
  | nil => simp [listUnion]
  | cons d rest ih =>
    simp only [listUnion, List.foldr_cons, Finset.mem_union, List.mem_cons]
    rw [show (List.foldr (fun d acc => d ∪ acc) ∅ rest) = listUnion rest from rfl,
      ih]
    constructor
    · rintro (h | ⟨e, he, hx⟩)
      · exact ⟨d, Or.inl rfl, h⟩
      · exact ⟨e, Or.inr he, hx⟩
    · rintro ⟨e, rfl | he, hx⟩
      · exact Or.inl hx
      · exact Or.inr ⟨e, he, hx⟩

theorem sdiff_sdiff_union (A B C : Finset Int) : (A \ B) \ C = A \ (B ∪ C) := by
  ext x
  simp only [Finset.mem_sdiff, Finset.mem_union]
  tauto

theorem validLoop_eq_true_iff (m : VotingMap) (mean : Int) (margin : ℚ) :
    ∀ (L : List (Finset Int)) (A : Finset Int),
      validLoop m mean margin L A = some true ↔
        ((∀ d ∈ L, isContinuous m d = some true ∧
            ∃ p, listPop m (setToVector d) = some p ∧
              popOutOfBounds mean margin p = false) ∧
          A \ listUnion L = ∅) := by
  intro L
  induction L with
  | nil =>
    intro A
    simp [validLoop, listUnion]
  | cons d rest ih =>
    intro A
    cases hc : isContinuous m d with
    | none =>
      simp only [validLoop, hc]
      constructor
      · intro h; cases h
      · rintro ⟨h1, _⟩
        have := (h1 d (List.mem_cons_self d rest)).1
        rw [hc] at this
        cases this
    | some b =>
      cases b with
      | false =>
        simp only [validLoop, hc]
        constructor
        · intro h; cases h
        · rintro ⟨h1, _⟩
          have := (h1 d (List.mem_cons_self d rest)).1
          rw [hc] at this
          cases this
      | true =>
        simp only [validLoop, hc, popAgg_eq]
        cases hp : listPop m (setToVector d) with
        | none =>
          constructor
          · intro h; cases h
          · rintro ⟨h1, _⟩
            obtain ⟨p, hp', _⟩ := (h1 d (List.mem_cons_self d rest)).2
            rw [hp] at hp'
            cases hp'
        | some p =>
          simp only [Option.map_some', zero_add, setToVector_toFinset]
          cases hb : popOutOfBounds mean margin p with
          | true =>
            rw [if_pos rfl]
            constructor
            · intro h; cases h
            · rintro ⟨h1, _⟩
              obtain ⟨p', hp', hb'⟩ := (h1 d (List.mem_cons_self d rest)).2
              rw [hp] at hp'
              cases hp'
              rw [hb] at hb'
              cases hb'
          | false =>
            rw [if_neg Bool.false_ne_true]
            rw [ih, List.forall_mem_cons,
              show listUnion (d :: rest) = d ∪ listUnion rest from rfl,
              sdiff_sdiff_union]
            constructor
            · rintro ⟨h1, h2⟩
              exact ⟨⟨⟨hc, p, hp, hb⟩, h1⟩, h2⟩
            · rintro ⟨⟨_, h1⟩, h2⟩
              exact ⟨h1, h2⟩

theorem listUnion_planList (ds : Finset (Finset Int)) :
    listUnion (planList ds) = ds.sup id := by
  ext x
  simp [mem_listUnion, mem_planList, Finset.mem_sup]

/-- Full characterization of an accepted plan: a nonzero district count,
every district continuous and population-balanced for the integer mean, and
every registered precinct covered. -/
theorem isValidPlan_eq_true_iff (m : VotingMap) (ds : Finset (Finset Int))
    (margin : ℚ) :
    isValidPlan m ds margin = some true ↔
      ds.Nonempty ∧
        (∀ d ∈ ds, isContinuous m d = some true ∧
          ∃ p, districtPop m d = some p ∧
            popOutOfBounds (Int.tdiv m.totalPop ds.card) margin p = false) ∧
        m.precinctSet \ ds.sup id = ∅ := by
  rw [isValidPlan]
  by_cases h0 : ds.card = 0
  · rw [if_pos h0]
    constructor
    · intro h; cases h
    · rintro ⟨hne, _⟩
      exact absurd (Finset.card_eq_zero.mp h0) (Finset.nonempty_iff_ne_empty.mp hne)
  · rw [if_neg h0, validLoop_eq_true_iff, listUnion_planList]
    constructor
    · rintro ⟨h1, h2⟩
      refine ⟨Finset.card_pos.mp (Nat.pos_of_ne_zero h0), ?_, h2⟩
      intro d hd
      obtain ⟨hc, p, hp, hb⟩ := h1 d (mem_planList.mpr hd)
      exact ⟨hc, p, by rw [districtPop_eq]; exact hp, hb⟩
    · rintro ⟨_, h1, h2⟩
      refine ⟨?_, h2⟩
      intro d hd
      obtain ⟨hc, p, hp, hb⟩ := h1 d (mem_planList.mp hd)
      exact ⟨hc, p, by rw [districtPop_eq] at hp; exact hp, hb⟩

/-- C3 (amended): every plan the validator accepts (at any margin) covers the
registered precinct set exactly — the union of its districts equals the full
registered id set, so an uncovered precinct forces rejection.  (Membership of
one precinct in two distinct districts is NOT rejected; see the
counterexample.) -/
theorem valid_plan_union_eq_registered :
    ∀ (m : VotingMap) (ds : Finset (Finset Int)) (margin : ℚ),
      isValidPlan m ds margin = some true → ds.sup id = m.precinctSet := by
  intro m ds margin h
  rw [isValidPlan_eq_true_iff] at h
  obtain ⟨hne, hds, hcov⟩ := h
  apply Finset.Subset.antisymm
  · intro x hx
    rw [Finset.mem_sup] at hx
    obtain ⟨d, hd, hxd⟩ := hx
    obtain ⟨p, hp, _⟩ := (hds d hd).2
    rw [districtPop_eq] at hp
    exact mem_precinctSet_iff.mpr
      (listPop_registered hp x (mem_setToVector.mpr hxd))
  · intro x hx
    by_contra hxs
    have hmem : x ∈ m.precinctSet \ ds.sup id := Finset.mem_sdiff.mpr ⟨hx, hxs⟩
    rw [hcov] at hmem
    exact absurd hmem (Finset.not_mem_empty x)

/-- C3 witness: the single-district plan `{{1, 2}}` over `tinyMap` is
accepted and its union is the registered set. -/
theorem valid_plan_union_eq_registered_witness :
    ({({1, 2} : Finset Int)} : Finset (Finset Int)).sup id = tinyMap.precinctSet :=
  valid_plan_union_eq_registered tinyMap {({1, 2} : Finset Int)}
    POPULATION_MARGIN (by decide)

/-- C6: the validator balances population against
`mean = totalPopulation / numberOfDistricts` (C++ integer division) with
strict rejection comparisons, hence inclusive acceptance bounds: a district
is rejected by the balance test exactly when its population is strictly
above `mean * (1 + margin)` or strictly below `mean * (1 - margin)`; a
population equal to either bound passes, and every district of an accepted
plan lies within the inclusive bounds. -/
theorem population_balance_inclusive_bounds :
    (∀ (mean : Int) (margin : ℚ) (p : Int),
        popOutOfBounds mean margin p = false ↔
          ((mean : ℚ) * (1 - margin) ≤ (p : ℚ) ∧
            (p : ℚ) ≤ (mean : ℚ) * (1 + margin))) ∧
      ∀ (m : VotingMap) (ds : Finset (Finset Int)) (margin : ℚ),
        isValidPlan m ds margin = some true →
        ∀ d ∈ ds, ∃ p, districtPop m d = some p ∧
          ((Int.tdiv m.totalPop ds.card : ℚ) * (1 - margin) ≤ (p : ℚ) ∧
            (p : ℚ) ≤ (Int.tdiv m.totalPop ds.card : ℚ) * (1 + margin)) := by
  have hiff : ∀ (mean : Int) (margin : ℚ) (p : Int),
      popOutOfBounds mean margin p = false ↔
        ((mean : ℚ) * (1 - margin) ≤ (p : ℚ) ∧
          (p : ℚ) ≤ (mean : ℚ) * (1 + margin)) := by
    intro mean margin p
    constructor
    · intro hfalse
      have h2 : ¬((p : ℚ) > (mean : ℚ) * (1 + margin) ∨
          (p : ℚ) < (mean : ℚ) * (1 - margin)) := by
        rw [← popOutOfBounds_iff mean margin p, hfalse]
        simp
      push_neg at h2
      exact ⟨h2.2, h2.1⟩
    · rintro ⟨h1, h2⟩
      rw [← Bool.not_eq_true, popOutOfBounds_iff]
      push_neg
      exact ⟨h2, h1⟩
  refine ⟨hiff, ?_⟩
  intro m ds margin h d hd
  rw [isValidPlan_eq_true_iff] at h
  obtain ⟨p, hp, hb⟩ := (h.2.1 d hd).2
  exact ⟨p, hp, (hiff _ margin p).mp hb⟩

/-- C6 witness: with mean 10 and margin 1/5 the inclusive bounds are
[8, 12]; a district population of exactly 12 passes the balance test, and
the accepted plan `{{1, 2}}` over `tinyMap` has its district population 2
within [8/5, 12/5]. -/
theorem population_balance_inclusive_bounds_witness :
    ((10 : ℚ) * (1 - POPULATION_MARGIN) ≤ (12 : ℚ) ∧
        (12 : ℚ) ≤ (10 : ℚ) * (1 + POPULATION_MARGIN)) ∧
      ∃ p, districtPop tinyMap {1, 2} = some p ∧
        ((Int.tdiv tinyMap.totalPop
            ({({1, 2} : Finset Int)} : Finset (Finset Int)).card : ℚ) *
            (1 - POPULATION_MARGIN) ≤ (p : ℚ) ∧
          (p : ℚ) ≤ (Int.tdiv tinyMap.totalPop
            ({({1, 2} : Finset Int)} : Finset (Finset Int)).card : ℚ) *
            (1 + POPULATION_MARGIN)) :=
  ⟨(population_balance_inclusive_bounds.1 10 POPULATION_MARGIN 12).mp (by decide),
    population_balance_inclusive_bounds.2 tinyMap {({1, 2} : Finset Int)}
      POPULATION_MARGIN (by decide) {1, 2} (by decide)⟩

/-- One step of the walk: an adjacency edge between two members of the
district. -/
def adjStep (m : VotingMap) (D : Finset Int) (x y : Int) : Prop :=
  x ∈ D ∧ y ∈ D ∧ ∃ s, m.getAdjacentPrecincts x = some s ∧ y ∈ s

/-- Reachability through adjacency edges confined to members of `D`. -/
def ReachWithin (m : VotingMap) (D : Finset Int) (x y : Int) : Prop :=
  Relation.ReflTransGen (adjStep m D) x y

theorem ReachWithin.mono {m : VotingMap} {D E : Finset Int} {x y : Int}
    (hDE : D ⊆ E) (h : ReachWithin m D x y) : ReachWithin m E x y :=
  Relation.ReflTransGen.mono
    (fun _ _ hs => ⟨hDE hs.1, hDE hs.2.1, hs.2.2⟩) h

theorem foldlM_subset {f : Finset Int → Int → Option (Finset Int)}
    (hf : ∀ c x r, f c x = some r → r ⊆ c) :
    ∀ (L : List Int) (c r), List.foldlM f c L = some r → r ⊆ c := by
  intro L
  induction L with
  | nil =>
    intro c r h
    rw [List.foldlM_nil] at h
    cases h
    exact subset_rfl
  | cons a L ih =>
    intro c r h
    rw [List.foldlM_cons] at h
    cases hfc : f c a with
    | none => rw [hfc] at h; cases h
    | some c1 =>
      rw [hfc] at h
      exact (ih c1 r h).trans (hf c a c1 hfc)

theorem dfs_subset (m : VotingMap) :
    ∀ (fuel : Nat) (d : Finset Int) (s : Int) (r : Finset Int),
      dfs m fuel d s = some r → r ⊆ d := by
  intro fuel
  induction fuel with
  | zero => intro d s r h; cases h
  | succ fuel ih =>
    intro d s r h
    rw [dfs] at h
    by_cases hs : s ∈ d
    · rw [if_pos hs] at h
      cases hadj : m.getAdjacentPrecincts s with
      | none => rw [hadj] at h; cases h
      | some next =>
        rw [hadj] at h
        exact (foldlM_subset (fun c x r' h' => ih c x r' h') _ _ _ h).trans
          (Finset.erase_subset s d)
    · rw [if_neg hs] at h
      cases h
      exact subset_rfl

theorem foldlM_total {f : Finset Int → Int → Option (Finset Int)}
    {D : Finset Int}
    (hf : ∀ c x, c ⊆ D → ∃ r, f c x = some r ∧ r ⊆ c) :
    ∀ (L : List Int) (c), c ⊆ D →
      ∃ r, List.foldlM f c L = some r ∧ r ⊆ c := by
  intro L
  induction L with
  | nil =>
    intro c _
    exact ⟨c, by rw [List.foldlM_nil]; rfl, subset_rfl⟩
  | cons a L ih =>
    intro c hc
    obtain ⟨c1, hc1, hc1c⟩ := hf c a hc
    obtain ⟨r, hr, hrc⟩ := ih c1 (hc1c.trans hc)
    exact ⟨r, by rw [List.foldlM_cons, hc1]; exact hr, hrc.trans hc1c⟩

theorem dfs_total (m : VotingMap) :
    ∀ (fuel : Nat) (d : Finset Int) (s : Int), d.card < fuel →
      (∀ x ∈ d, m.contains x = true) →
      ∃ r, dfs m fuel d s = some r := by
  intro fuel
  induction fuel with
  | zero => intro d s h _; exact absurd h (Nat.not_lt_zero _)
  | succ fuel ih =>
    intro d s hcard hreg
    by_cases hs : s ∈ d
    · have hadj : (m.getAdjacentPrecincts s).isSome :=
        getAdjacentPrecincts_isSome.mpr (hreg s hs)
      cases hA : m.getAdjacentPrecincts s with
      | none => rw [hA] at hadj; cases hadj
      | some next =>
        have hcard1 : 1 ≤ d.card := Finset.card_pos.mpr ⟨s, hs⟩
        have herase : (d.erase s).card = d.card - 1 :=
          Finset.card_erase_of_mem hs
        have hf : ∀ c x, c ⊆ d.erase s → ∃ r, dfs m fuel c x = some r ∧ r ⊆ c := by
          intro c x hc
          have hccard : c.card < fuel := by
            have := Finset.card_le_card hc
            omega
          obtain ⟨r, hr⟩ := ih c x hccard
            (fun y hy => hreg y (Finset.erase_subset s d (hc hy)))
          exact ⟨r, hr, dfs_subset m fuel c x r hr⟩
        obtain ⟨r, hr, _⟩ := foldlM_total hf (setToVector next) (d.erase s)
          subset_rfl
        exact ⟨r, by rw [dfs, if_pos hs, hA]; exact hr⟩
    · exact ⟨d, by rw [dfs, if_neg hs]⟩

theorem foldlM_sound {m : VotingMap} {D : Finset Int}
    {f : Finset Int → Int → Option (Finset Int)}
    (hf : ∀ c n r', c ⊆ D → f c n = some r' → r' ⊆ c ∧
      ∀ x ∈ c, x ∉ r' → n ∈ c ∧ ReachWithin m D n x) :
    ∀ (L : List Int) (c r), c ⊆ D → List.foldlM f c L = some r →
      r ⊆ c ∧ ∀ x ∈ c, x ∉ r → ∃ n ∈ L, n ∈ c ∧ ReachWithin m D n x := by
  intro L
  induction L with
  | nil =>
    intro c r _ h
    rw [List.foldlM_nil] at h
    cases h
    exact ⟨subset_rfl, fun x hx hnx => absurd hx hnx⟩
  | cons a L ih =>
    intro c r hc h
    rw [List.foldlM_cons] at h
    cases hfc : f c a with
    | none => rw [hfc] at h; cases h
    | some c1 =>
      rw [hfc] at h
      obtain ⟨hc1c, hstep⟩ := hf c a c1 hc hfc
      obtain ⟨hrc1, hrest⟩ := ih c1 r (hc1c.trans hc) h
      refine ⟨hrc1.trans hc1c, ?_⟩
      intro x hx hnx
      by_cases hx1 : x ∈ c1
      · obtain ⟨n, hnL, hnc1, hreach⟩ := hrest x hx1 hnx
        exact ⟨n, List.mem_cons_of_mem a hnL, hc1c hnc1, hreach⟩
      · obtain ⟨hac, hreach⟩ := hstep x hx hx1
        exact ⟨a, List.mem_cons_self a L, hac, hreach⟩

theorem dfs_sound (m : VotingMap) :
    ∀ (fuel : Nat) (d : Finset Int) (s : Int) (r : Finset Int),
      dfs m fuel d s = some r →
      ∀ x ∈ d, x ∉ r → ReachWithin m d s x := by
  intro fuel
  induction fuel with
  | zero => intro d s r h; cases h
  | succ fuel ih =>
    intro d s r h
    rw [dfs] at h
    by_cases hs : s ∈ d
    · rw [if_pos hs] at h
      cases hadj : m.getAdjacentPrecincts s with
      | none => rw [hadj] at h; cases h
      | some next =>
        rw [hadj] at h
        have hf : ∀ c n r', c ⊆ d → dfs m fuel c n = some r' → r' ⊆ c ∧
            ∀ x ∈ c, x ∉ r' → n ∈ c ∧ ReachWithin m d n x := by
          intro c n r' hcd h'
          refine ⟨dfs_subset m fuel c n r' h', ?_⟩
          intro x hx hnx
          by_cases hn : n ∈ c
          · exact ⟨hn, (ih c n r' h' x hx hnx).mono hcd⟩
          · cases fuel with
            | zero => cases h'
            | succ fuel' =>
              rw [dfs, if_neg hn] at h'
              cases h'
              exact absurd hx hnx
        obtain ⟨hrsub, hrem⟩ := foldlM_sound hf (setToVector next)
          (d.erase s) r (Finset.erase_subset s d) h
        intro x hx hnx
        by_cases hxs : x = s
        · exact hxs ▸ Relation.ReflTransGen.refl
        · obtain ⟨n, hnL, hnc, hreach⟩ :=
            hrem x (Finset.mem_erase.mpr ⟨hxs, hx⟩) hnx
          have hstep : adjStep m d s n :=
            ⟨hs, Finset.erase_subset s d hnc, next, hadj,
              mem_setToVector.mp hnL⟩
          exact Relation.ReflTransGen.head hstep hreach
    · rw [if_neg hs] at h
      cases h
      intro x hx hnx
      exact absurd hx hnx

/-- Closure of the removed nodes of a completed walk: neighbors of removed
district members are never left in the remainder, and the start is always
removed when it is a member. -/
theorem foldlM_closed {m : VotingMap}
    {f : Finset Int → Int → Option (Finset Int)}
    (hf : ∀ c n r', f c n = some r' → r' ⊆ c ∧ (n ∈ c → n ∉ r') ∧
      ∀ x ∈ c, x ∉ r' → ∀ ns, m.getAdjacentPrecincts x = some ns →
        ∀ y ∈ ns, y ∉ r') :
    ∀ (L : List Int) (c r), List.foldlM f c L = some r →
      r ⊆ c ∧ (∀ n ∈ L, n ∉ r) ∧
        ∀ x ∈ c, x ∉ r → ∀ ns, m.getAdjacentPrecincts x = some ns →
          ∀ y ∈ ns, y ∉ r := by
  intro L
  induction L with
  | nil =>
    intro c r h
    rw [List.foldlM_nil] at h
    cases h
    exact ⟨subset_rfl, fun n hn => absurd hn (List.not_mem_nil n),
      fun x hx hnx => absurd hx hnx⟩
  | cons a L ih =>
    intro c r h
    rw [List.foldlM_cons] at h
    cases hfc : f c a with
    | none => rw [hfc] at h; cases h
    | some c1 =>
      rw [hfc] at h
      obtain ⟨hc1c, hstart, hcl⟩ := hf c a c1 hfc
      obtain ⟨hrc1, hL, hcl'⟩ := ih c1 r h
      refine ⟨hrc1.trans hc1c, ?_, ?_⟩
      · intro n hn
        rcases List.mem_cons.mp hn with rfl | hnL
        · by_cases hac : n ∈ c
          · exact fun hr => hstart hac (hrc1 hr)
          · exact fun hr => hac (hc1c (hrc1 hr))
        · exact hL n hnL
      · intro x hx hnx ns hns y hy
        by_cases hx1 : x ∈ c1
        · exact hcl' x hx1 hnx ns hns y hy
        · exact fun hr => hcl x hx hx1 ns hns y hy (hrc1 hr)

theorem dfs_closed (m : VotingMap) :
    ∀ (fuel : Nat) (d : Finset Int) (s : Int) (r : Finset Int),
      dfs m fuel d s = some r →
      (s ∈ d → s ∉ r) ∧
        ∀ x ∈ d, x ∉ r → ∀ ns, m.getAdjacentPrecincts x = some ns →
          ∀ y ∈ ns, y ∉ r := by
  intro fuel
  induction fuel with
  | zero => intro d s r h; cases h
  | succ fuel ih =>
    intro d s r h
    rw [dfs] at h
    by_cases hs : s ∈ d
    · rw [if_pos hs] at h
      cases hadj : m.getAdjacentPrecincts s with
      | none => rw [hadj] at h; cases h
      | some next =>
        rw [hadj] at h
        have hf : ∀ c n r', dfs m fuel c n = some r' → r' ⊆ c ∧
            (n ∈ c → n ∉ r') ∧
            ∀ x ∈ c, x ∉ r' → ∀ ns, m.getAdjacentPrecincts x = some ns →
              ∀ y ∈ ns, y ∉ r' := by
          intro c n r' h'
          exact ⟨dfs_subset m fuel c n r' h', (ih c n r' h').1,
            (ih c n r' h').2⟩
        obtain ⟨hrsub, hLn, hclo⟩ := foldlM_closed hf (setToVector next)
          (d.erase s) r h
        constructor
        · intro _ hr
          exact absurd (hrsub hr) (Finset.not_mem_erase s d)
        · intro x hx hnx ns hns y hy
          by_cases hxs : x = s
          · subst hxs
            rw [hadj] at hns
            cases hns
            exact hLn y (mem_setToVector.mpr hy)
          · exact hclo x (Finset.mem_erase.mpr ⟨hxs, hx⟩) hnx ns hns y hy
    · rw [if_neg hs] at h
      cases h
      exact ⟨fun hsd => absurd hsd hs, fun x hx hnx => absurd hx hnx⟩

theorem isContinuous_eval (m : VotingMap) (d : Finset Int) (h : d.Nonempty)
    (hreg : ∀ x ∈ d, m.contains x = true) :
    ∃ r, dfs m (d.card + 1) d (d.min' h) = some r ∧
      isContinuous m d = some (decide (r = ∅)) := by
  obtain ⟨r, hr⟩ := dfs_total m (d.card + 1) d (d.min' h) (Nat.lt_succ_self _)
    hreg
  exact ⟨r, hr, by rw [isContinuous, dif_pos h, hr]; rfl⟩

/-- The walk empties the district exactly when every member is reachable
from the start within the district. -/
theorem isContinuous_iff_reach (m : VotingMap) (d : Finset Int)
    (h : d.Nonempty) (hreg : ∀ x ∈ d, m.contains x = true) :
    isContinuous m d = some true ↔
      ∀ x ∈ d, ReachWithin m d (d.min' h) x := by
  obtain ⟨r, hdfs, hic⟩ := isContinuous_eval m d h hreg
  rw [hic]
  constructor
  · intro ht x hx
    have hr : r = ∅ := by
      have := Option.some.inj ht
      simpa using this
    exact dfs_sound m (d.card + 1) d (d.min' h) r hdfs x hx
      (by rw [hr]; exact Finset.not_mem_empty x)
  · intro hall
    have hr : r = ∅ := by
      by_contra hne
      obtain ⟨x, hx⟩ := Finset.nonempty_of_ne_empty hne
      have hxd : x ∈ d := dfs_subset m _ d _ r hdfs hx
      have hnotin : ∀ z, ReachWithin m d (d.min' h) z → z ∉ r := by
        intro z hz
        induction hz with
        | refl =>
          exact (dfs_closed m _ d _ r hdfs).1 (d.min'_mem h)
        | tail _ hstep ihz =>
          obtain ⟨hb, hc, ns, hns, hyns⟩ := hstep
          exact (dfs_closed m _ d _ r hdfs).2 _ hb ihz ns hns _ hyns
      exact absurd hx (hnotin x (hall x hxd))
    rw [hr]
    rfl

theorem validLoop_isSome (m : VotingMap) (mean : Int) (margin : ℚ) :
    ∀ (L : List (Finset Int)) (A : Finset Int),
      (∀ d ∈ L, d.Nonempty) →
      (∀ d ∈ L, ∀ x ∈ d, m.contains x = true) →
      (validLoop m mean margin L A).isSome := by
  intro L
  induction L with
  | nil => intro A _ _; rfl
  | cons d rest ih =>
    intro A hne hreg
    have hd := hne d (List.mem_cons_self d rest)
    have hdreg := hreg d (List.mem_cons_self d rest)
    obtain ⟨r, _, hic⟩ := isContinuous_eval m d hd hdreg
    cases hb : decide (r = ∅) with
    | false =>
      rw [hb] at hic
      simp only [validLoop, hic]
      rfl
    | true =>
      rw [hb] at hic
      simp only [validLoop, hic, popAgg_eq]
      have hlp : (listPop m (setToVector d)).isSome :=
        listPop_isSome (fun x hx => hdreg x (mem_setToVector.mp hx))
      cases hp : listPop m (setToVector d) with
      | none => rw [hp] at hlp; cases hlp
      | some p =>
        simp only [Option.map_some']
        cases popOutOfBounds mean margin (0 + p) with
        | true => rfl
        | false =>
          exact ih _ (fun e he => hne e (List.mem_cons_of_mem d he))
            (fun e he => hreg e (List.mem_cons_of_mem d he))

theorem isValidPlan_isSome (m : VotingMap) (ds : Finset (Finset Int))
    (margin : ℚ) (h0 : ds.Nonempty)
    (hne : ∀ d ∈ ds, d.Nonempty)
    (hreg : ∀ d ∈ ds, ∀ x ∈ d, m.contains x = true) :
    (isValidPlan m ds margin).isSome := by
  rw [isValidPlan, if_neg (fun hc =>
    Finset.nonempty_iff_ne_empty.mp h0 (Finset.card_eq_zero.mp hc))]
  exact validLoop_isSome m _ margin (planList ds) m.precinctSet
    (fun d hd => hne d (mem_planList.mp hd))
    (fun d hd => hreg d (mem_planList.mp hd))

/-- C5: `isContinuous` on a non-empty district (of registered precincts)
returns `true` exactly when every member is reachable from the walk's
starting member — `district.first()`, the least member — through adjacency
edges confined to members of the district; a singleton district is always
continuous; and a two-precinct district whose members have no adjacency path
between them (in either direction) makes every containing plan invalid
regardless of population, at every margin. -/
theorem continuity_characterization :
    (∀ (m : VotingMap) (d : Finset Int) (h : d.Nonempty),
        (∀ x ∈ d, m.contains x = true) →
        (isContinuous m d = some true ↔
          ∀ x ∈ d, ReachWithin m d (d.min' h) x)) ∧
      (∀ (m : VotingMap) (a : Int), m.contains a = true →
        isContinuous m ({a} : Finset Int) = some true) ∧
      (∀ (m : VotingMap) (a b : Int) (ds : Finset (Finset Int)) (margin : ℚ),
        a ≠ b → ({a, b} : Finset Int) ∈ ds →
        (∀ d ∈ ds, d.Nonempty) →
        (∀ d ∈ ds, ∀ x ∈ d, m.contains x = true) →
        ¬ ReachWithin m {a, b} a b → ¬ ReachWithin m {a, b} b a →
        isValidPlan m ds margin = some false) := by
  refine ⟨isContinuous_iff_reach, ?_, ?_⟩
  · intro m a ha
    have h : ({a} : Finset Int).Nonempty := ⟨a, Finset.mem_singleton_self a⟩
    rw [isContinuous_iff_reach m {a} h (by simpa using ha)]
    intro x hx
    rw [Finset.mem_singleton] at hx
    subst hx
    have hmin : ({x} : Finset Int).min' h = x := by
      have := Finset.min'_mem ({x} : Finset Int) h
      rwa [Finset.mem_singleton] at this
    rw [hmin]
    exact Relation.ReflTransGen.refl
  · intro m a b ds margin hab hmem hne hregs hnab hnba
    have hd : ({a, b} : Finset Int).Nonempty := ⟨a, by simp⟩
    have hdreg := hregs {a, b} hmem
    have hnotall :
        ¬ ∀ x ∈ ({a, b} : Finset Int),
            ReachWithin m {a, b} (({a, b} : Finset Int).min' hd) x := by
      intro hall
      have hmin := Finset.min'_mem ({a, b} : Finset Int) hd
      rcases Finset.mem_insert.mp hmin with hma | hmb
      · apply hnab
        have := hall b (by simp)
        rwa [hma] at this
      · rw [Finset.mem_singleton] at hmb
        apply hnba
        have := hall a (by simp)
        rwa [hmb] at this
    have hncont : isContinuous m {a, b} ≠ some true := fun hc =>
      hnotall ((isContinuous_iff_reach m {a, b} hd hdreg).mp hc)
    obtain ⟨r, _, hic⟩ := isContinuous_eval m {a, b} hd hdreg
    have hfalse : isContinuous m {a, b} = some false := by
      cases hb2 : decide (r = ∅) with
      | true => rw [hb2] at hic; exact absurd hic hncont
      | false => rw [hb2] at hic; exact hic
    have hsome := isValidPlan_isSome m ds margin ⟨{a, b}, hmem⟩ hne hregs
    have hntrue : isValidPlan m ds margin ≠ some true := by
      intro ht
      rw [isValidPlan_eq_true_iff] at ht
      have hcont := (ht.2.1 {a, b} hmem).1
      rw [hcont] at hfalse
      simp at hfalse
    cases hv : isValidPlan m ds margin with
    | none => rw [hv] at hsome; cases hsome
    | some bv =>
      cases bv with
      | true => exact absurd hv hntrue
      | false => rfl

/-- C5 witness: the singleton district `{1}` over `tinyMap` is continuous. -/
theorem continuity_characterization_witness :
    isContinuous tinyMap ({1} : Finset Int) = some true :=
  continuity_characterization.2.1 tinyMap 1 (by decide)

theorem getDemographic_mem_areas {m : VotingMap} {x : Int} {dm : Demographic}
    (h : m.getDemographic x = some dm) :
    ∃ a ∈ m.areas, dm.dem = a.dem ∧ dm.rep = a.rep := by
  rw [VotingMap.getDemographic] at h
  cases hA : m.getArea x with
  | none => rw [hA] at h; cases h
  | some a =>
    rw [hA] at h
    cases h
    exact ⟨a, List.mem_of_find?_eq_some hA, rfl, rfl⟩

theorem demRepAgg_nonneg {m : VotingMap}
    (hm : ∀ a ∈ m.areas, 0 ≤ a.dem ∧ 0 ≤ a.rep) :
    ∀ (l : List Int) (d0 r0 : Int), 0 ≤ d0 → 0 ≤ r0 →
      ∀ {dd rr : Int}, demRepAgg m l d0 r0 = some (dd, rr) →
        0 ≤ dd ∧ 0 ≤ rr := by
  intro l
  induction l with
  | nil =>
    intro d0 r0 hd hr dd rr h
    cases h
    exact ⟨hd, hr⟩
  | cons x rest ih =>
    intro d0 r0 hd hr dd rr h
    simp only [demRepAgg] at h
    cases hdm : m.getDemographic x with
    | none => rw [hdm] at h; cases h
    | some dm =>
      rw [hdm] at h
      obtain ⟨a, _, hda, hra⟩ := getDemographic_mem_areas hdm
      have := hm a (by assumption)
      exact ih (d0 + dm.dem) (r0 + dm.rep) (by omega) (by omega) h

theorem districtDemRep_nonneg {m : VotingMap}
    (hm : ∀ a ∈ m.areas, 0 ≤ a.dem ∧ 0 ≤ a.rep) {d : Finset Int}
    {dd rr : Int} (h : districtDemRep m d = some (dd, rr)) :
    0 ≤ dd ∧ 0 ≤ rr :=
  demRepAgg_nonneg hm (setToVector d) 0 0 le_rfl le_rfl h

theorem wasted_diff_bound {dd rr : Int} (hd : 0 ≤ dd) (hr : 0 ≤ rr)
    (hsum : 1 ≤ dd + rr) :
    |demWasted dd rr - repWasted dd rr| ≤ dd + rr := by
  rw [abs_le]
  unfold demWasted repWasted
  split_ifs with h <;> omega

theorem aggregate_props {m : VotingMap} :
    ∀ (L : List (Finset Int)),
      (∀ d ∈ L, ∃ dd rr, districtDemRep m d = some (dd, rr) ∧
        0 ≤ dd ∧ 0 ≤ rr ∧ 1 ≤ dd + rr) →
      ∀ (dw rw tv : Int), |dw - rw| ≤ tv →
        ∃ dw' rw' tv', aggregate m L dw rw tv = some (dw', rw', tv') ∧
          |dw' - rw'| ≤ tv' ∧ tv + L.length ≤ tv' := by
  intro L
  induction L with
  | nil =>
    intro _ dw rw tv habs
    exact ⟨dw, rw, tv, rfl, habs, by simp⟩
  | cons d rest ih =>
    intro hL dw rw tv habs
    obtain ⟨dd, rr, hdrr, hd0, hr0, hsum⟩ := hL d (List.mem_cons_self d rest)
    have hstep : |dw + demWasted dd rr - (rw + repWasted dd rr)| ≤
        tv + dd + rr := by
      have h1 : dw + demWasted dd rr - (rw + repWasted dd rr) =
          (dw - rw) + (demWasted dd rr - repWasted dd rr) := by ring
      rw [h1]
      calc |(dw - rw) + (demWasted dd rr - repWasted dd rr)|
          ≤ |dw - rw| + |demWasted dd rr - repWasted dd rr| := abs_add _ _
        _ ≤ tv + (dd + rr) := add_le_add habs (wasted_diff_bound hd0 hr0 hsum)
        _ = tv + dd + rr := by ring
    obtain ⟨dw', rw', tv', hagg, habs', hlen⟩ :=
      ih (fun e he => hL e (List.mem_cons_of_mem d he)) _ _ _ hstep
    refine ⟨dw', rw', tv', ?_, habs', by simp only [List.length_cons]; omega⟩
    simp only [aggregate, hdrr]
    exact hagg

theorem planList_length (ds : Finset (Finset Int)) :
    (planList ds).length = ds.card := by
  have := congrArg Multiset.card (planList_coe ds)
  simpa using this

theorem int_tdiv_eq_floor (a b : Int) (ha : 0 ≤ a) (hb : 0 < b) :
    Int.tdiv a b = ⌊(a : ℚ) / (b : ℚ)⌋ := by
  rw [Int.tdiv_eq_ediv ha hb.le, ← Int.toNat_of_nonneg hb.le,
    show (((b.toNat : ℤ)) : ℚ) = ((b.toNat : ℕ) : ℚ) by push_cast; ring]
  exact (Rat.floor_intCast_div_natCast a b.toNat).symm

/-- C2 (amended): for a plan accepted at the default margin, over a registry
with nonnegative vote counts, whose districts each carry at least one vote,
`howGerrymandered` returns exactly
`floor(100 * |Σ demWasted - Σ repWasted| / totalVotes)`, and that value lies
in [0, 100].  (Without the per-district vote requirement the formula still
holds but the value can exceed 100 — see the counterexample.) -/
theorem efficiency_gap_formula_and_range :
    ∀ (m : VotingMap) (ds : Finset (Finset Int)),
      isValidPlan m ds POPULATION_MARGIN = some true →
      (∀ a ∈ m.areas, 0 ≤ a.dem ∧ 0 ≤ a.rep) →
      (∀ d ∈ ds, ∃ dd rr, districtDemRep m d = some (dd, rr) ∧ 1 ≤ dd + rr) →
      ∃ dw rw tv, aggregate m (planList ds) 0 0 0 = some (dw, rw, tv) ∧
        0 < tv ∧
        howGerrymandered m ds = some (Int.tdiv (100 * |dw - rw|) tv) ∧
        Int.tdiv (100 * |dw - rw|) tv = ⌊((100 * |dw - rw| : Int) : ℚ) / (tv : ℚ)⌋ ∧
        0 ≤ Int.tdiv (100 * |dw - rw|) tv ∧
        Int.tdiv (100 * |dw - rw|) tv ≤ 100 := by
  intro m ds hv hnn hvotes
  have hL : ∀ d ∈ planList ds, ∃ dd rr, districtDemRep m d = some (dd, rr) ∧
      0 ≤ dd ∧ 0 ≤ rr ∧ 1 ≤ dd + rr := by
    intro d hd
    obtain ⟨dd, rr, hdrr, hsum⟩ := hvotes d (mem_planList.mp hd)
    obtain ⟨hd0, hr0⟩ := districtDemRep_nonneg hnn hdrr
    exact ⟨dd, rr, hdrr, hd0, hr0, hsum⟩
  obtain ⟨dw, rw, tv, hagg, habs, hlen⟩ :=
    aggregate_props (planList ds) hL 0 0 0 (by simp)
  have hcard : 1 ≤ ds.card := by
    have hne : ds.Nonempty := ((isValidPlan_eq_true_iff m ds _).mp hv).1
    exact Finset.card_pos.mpr hne
  have htv : 0 < tv := by
    rw [planList_length] at hlen
    omega
  have hnum : (0 : Int) ≤ 100 * |dw - rw| :=
    mul_nonneg (by norm_num) (abs_nonneg _)
  have hscore : howGerrymandered m ds = some (Int.tdiv (100 * |dw - rw|) tv) := by
    simp only [howGerrymandered, hv, hagg]
    rw [if_neg (show ¬tv = 0 by omega)]
  refine ⟨dw, rw, tv, hagg, htv, hscore, ?_, Int.tdiv_nonneg hnum htv.le, ?_⟩
  · exact int_tdiv_eq_floor _ _ hnum htv
  · have h100 : 100 * |dw - rw| ≤ 100 * tv := by
      have := habs
      omega
    calc Int.tdiv (100 * |dw - rw|) tv
        = (100 * |dw - rw|) / tv := Int.tdiv_eq_ediv hnum htv.le
      _ ≤ (100 * tv) / tv := Int.ediv_le_ediv htv h100
      _ = 100 := Int.mul_ediv_cancel 100 (by omega)

/-- C2 witness: the one-district plan over `pairMap` (votes 1-1) is valid,
has `totalVotes = 2`, wasted votes 1 and -1, and scores exactly 100. -/
theorem efficiency_gap_formula_and_range_witness :
    ∃ dw rw tv,
      aggregate pairMap (planList {({1, 2} : Finset Int)}) 0 0 0 =
          some (dw, rw, tv) ∧
        0 < tv ∧
        howGerrymandered pairMap {({1, 2} : Finset Int)} =
          some (Int.tdiv (100 * |dw - rw|) tv) ∧
        Int.tdiv (100 * |dw - rw|) tv =
          ⌊((100 * |dw - rw| : Int) : ℚ) / (tv : ℚ)⌋ ∧
        0 ≤ Int.tdiv (100 * |dw - rw|) tv ∧
        Int.tdiv (100 * |dw - rw|) tv ≤ 100 :=
  efficiency_gap_formula_and_range pairMap {({1, 2} : Finset Int)}
    (by decide) (by decide)
    (fun d hd => by
      rw [Finset.mem_singleton] at hd
      subst hd
      exact ⟨1, 1, by decide, by decide⟩)

/-- The wasted-vote differential a frontier candidate would produce if added
to the running district (the quantity compared by the selection loop). -/
def candDiff (m : VotingMap) (demo : Demographic) (favorRep : Bool)
    (c : Int) : Option Int :=
  (m.getDemographic c).map
    (fun t => wasteDiff favorRep (demo.dem + t.dem) (demo.rep + t.rep))

theorem selectLoop_spec (m : VotingMap) (demo : Demographic) (favorRep : Bool)
    (ids : Finset Int) :
    ∀ (L : List Int) (mw mid : Int) (coins : List Bool),
      (∀ c ∈ L, c ∈ ids → m.contains c = true) →
      ∃ sel cs, selectLoop m demo favorRep ids L mw mid coins = some (sel, cs) ∧
        (((∀ c ∈ L, c ∈ ids → ∀ w, candDiff m demo favorRep c = some w →
              w ≤ mw) ∧ sel = mid) ∨
          (sel ∈ L ∧ sel ∈ ids ∧
            ∃ ws, candDiff m demo favorRep sel = some ws ∧ mw ≤ ws ∧
              ∀ c ∈ L, c ∈ ids → ∀ w, candDiff m demo favorRep c = some w →
                w ≤ ws)) := by
  intro L
  induction L with
  | nil =>
    intro mw mid coins _
    exact ⟨mid, coins, rfl, Or.inl ⟨fun c hc => absurd hc (List.not_mem_nil c),
      rfl⟩⟩
  | cons c rest ih =>
    intro mw mid coins hregs
    have hregs' : ∀ e ∈ rest, e ∈ ids → m.contains e = true :=
      fun e he => hregs e (List.mem_cons_of_mem c he)
    by_cases hc : c ∈ ids
    · have hcreg : (m.getDemographic c).isSome :=
        getDemographic_isSome.mpr (hregs c (List.mem_cons_self c rest) hc)
      cases ht : m.getDemographic c with
      | none => rw [ht] at hcreg; cases hcreg
      | some t =>
        have hcd : candDiff m demo favorRep c =
            some (wasteDiff favorRep (demo.dem + t.dem) (demo.rep + t.rep)) := by
          rw [candDiff, ht]; rfl
        have hunf : selectLoop m demo favorRep ids (c :: rest) mw mid coins =
            (if wasteDiff favorRep (demo.dem + t.dem) (demo.rep + t.rep) > mw
             then selectLoop m demo favorRep ids rest
                (wasteDiff favorRep (demo.dem + t.dem) (demo.rep + t.rep)) c
                coins
             else if wasteDiff favorRep (demo.dem + t.dem) (demo.rep + t.rep) =
                 mw then
               (match coins with
                | b :: cs => selectLoop m demo favorRep ids rest mw
                    (if b then c else mid) cs
                | [] => selectLoop m demo favorRep ids rest mw mid [])
             else selectLoop m demo favorRep ids rest mw mid coins) := by
          simp only [selectLoop, if_pos hc, ht]
        rcases lt_trichotomy mw
            (wasteDiff favorRep (demo.dem + t.dem) (demo.rep + t.rep)) with
          hlt | heq | hgt
        · rw [hunf, if_pos hlt]
          obtain ⟨sel, cs, hsel, hd⟩ := ih _ c coins hregs'
          refine ⟨sel, cs, hsel, Or.inr ?_⟩
          rcases hd with ⟨hall, hseleq⟩ | ⟨hmem, hids, ws, hws, hcwws, hall⟩
          · rw [hseleq]
            refine ⟨List.mem_cons_self c rest, hc, _, hcd, hlt.le, ?_⟩
            intro e he heids w hw
            rcases List.mem_cons.mp he with rfl | he'
            · rw [hcd] at hw
              exact le_of_eq (Option.some.inj hw).symm
            · exact hall e he' heids w hw
          · refine ⟨List.mem_cons_of_mem c hmem, hids, ws, hws,
              (hlt.le.trans hcwws), ?_⟩
            intro e he heids w hw
            rcases List.mem_cons.mp he with rfl | he'
            · rw [hcd] at hw
              exact (Option.some.inj hw) ▸ hcwws
            · exact hall e he' heids w hw
        · have hcle : ∀ w, candDiff m demo favorRep c = some w → w ≤ mw := by
            intro w hw
            rw [hcd] at hw
            have := Option.some.inj hw
            omega
          have hfix : ∀ (mid' : Int) (coins' : List Bool),
              (mid' = mid ∨ mid' = c) →
              ∃ sel cs,
                selectLoop m demo favorRep ids rest mw mid' coins' =
                  some (sel, cs) ∧
                (((∀ e ∈ c :: rest, e ∈ ids →
                      ∀ w, candDiff m demo favorRep e = some w → w ≤ mw) ∧
                    sel = mid) ∨
                  (sel ∈ c :: rest ∧ sel ∈ ids ∧
                    ∃ ws, candDiff m demo favorRep sel = some ws ∧ mw ≤ ws ∧
                      ∀ e ∈ c :: rest, e ∈ ids →
                        ∀ w, candDiff m demo favorRep e = some w → w ≤ ws)) := by
            intro mid' coins' hmid'
            obtain ⟨sel, cs, hsel, hd⟩ := ih mw mid' coins' hregs'
            refine ⟨sel, cs, hsel, ?_⟩
            have hallcons : (∀ e ∈ rest, e ∈ ids →
                ∀ w, candDiff m demo favorRep e = some w → w ≤ mw) →
                ∀ e ∈ c :: rest, e ∈ ids →
                  ∀ w, candDiff m demo favorRep e = some w → w ≤ mw := by
              intro hall e he heids w hw
              rcases List.mem_cons.mp he with rfl | he'
              · exact hcle w hw
              · exact hall e he' heids w hw
            rcases hd with ⟨hall, hseleq⟩ | ⟨hmem, hids, ws, hws, hmwws, hall⟩
            · rcases hmid' with hmq | hmq
              · exact Or.inl ⟨hallcons hall, hseleq.trans hmq⟩
              · rw [hseleq, hmq]
                refine Or.inr ⟨List.mem_cons_self _ rest, hc, mw,
                  by rw [hcd]; exact congrArg some heq.symm, le_rfl,
                  hallcons hall⟩
            · refine Or.inr ⟨List.mem_cons_of_mem c hmem, hids, ws, hws,
                hmwws, ?_⟩
              intro e he heids w hw
              rcases List.mem_cons.mp he with rfl | he'
              · exact (hcle w hw).trans hmwws
              · exact hall e he' heids w hw
          rw [hunf, if_neg (by omega), if_pos heq.symm]
          cases coins with
          | nil => exact hfix mid [] (Or.inl rfl)
          | cons b cs =>
            cases b with
            | true => exact hfix c cs (Or.inr rfl)
            | false => exact hfix mid cs (Or.inl rfl)
        · rw [hunf, if_neg (by omega), if_neg (by omega)]
          obtain ⟨sel, cs, hsel, hd⟩ := ih mw mid coins hregs'
          refine ⟨sel, cs, hsel, ?_⟩
          have hcle : ∀ w, candDiff m demo favorRep c = some w → w ≤ mw := by
            intro w hw
            rw [hcd] at hw
            have := Option.some.inj hw
            omega
          rcases hd with ⟨hall, hseleq⟩ | ⟨hmem, hids, ws, hws, hmwws, hall⟩
          · refine Or.inl ⟨?_, hseleq⟩
            intro e he heids w hw
            rcases List.mem_cons.mp he with rfl | he'
            · exact hcle w hw
            · exact hall e he' heids w hw
          · refine Or.inr ⟨List.mem_cons_of_mem c hmem, hids, ws, hws, hmwws, ?_⟩
            intro e he heids w hw
            rcases List.mem_cons.mp he with rfl | he'
            · exact (hcle w hw).trans hmwws
            · exact hall e he' heids w hw
    · have hunf : selectLoop m demo favorRep ids (c :: rest) mw mid coins =
          selectLoop m demo favorRep ids rest mw mid coins := by
        simp only [selectLoop, if_neg hc]
      rw [hunf]
      obtain ⟨sel, cs, hsel, hd⟩ := ih mw mid coins hregs'
      refine ⟨sel, cs, hsel, ?_⟩
      rcases hd with ⟨hall, hseleq⟩ | ⟨hmem, hids, ws, hws, hmwws, hall⟩
      · refine Or.inl ⟨?_, hseleq⟩
        intro e he heids w hw
        rcases List.mem_cons.mp he with rfl | he'
        · exact absurd heids hc
        · exact hall e he' heids w hw
      · refine Or.inr ⟨List.mem_cons_of_mem c hmem, hids, ws, hws, hmwws, ?_⟩
        intro e he heids w hw
        rcases List.mem_cons.mp he with rfl | he'
        · exact absurd heids hc
        · exact hall e he' heids w hw

/-- C9 (amended): when at least one free frontier candidate's as-if-added
differential strictly exceeds the differential of the district as it stands
(the seed of the running maximum), the selected precinct is a free frontier
candidate of maximal differential, for every coin stream.  When no candidate
beats the seed, the frontier's first element is selected regardless of its
differential (see the counterexample), and exact ties at the running maximum
are resolved by one `randomBool` draw per tie encountered. -/
theorem biased_selection_maximal_when_candidate_beats_base :
    ∀ (m : VotingMap) (demo : Demographic) (favorRep : Bool)
      (adj ids : Finset Int) (coins : List Bool),
      adj ⊆ ids →
      (∀ c ∈ adj, m.contains c = true) →
      (∃ c ∈ adj, ∃ w, candDiff m demo favorRep c = some w ∧
        wasteDiff favorRep demo.dem demo.rep < w) →
      ∃ sel cs, selectNext m demo favorRep adj ids coins = some (sel, cs) ∧
        sel ∈ adj ∧ sel ∈ ids ∧
        ∃ ws, candDiff m demo favorRep sel = some ws ∧
          ∀ c ∈ adj, ∀ w, candDiff m demo favorRep c = some w → w ≤ ws := by
  intro m demo favorRep adj ids coins hsub hreg hex
  obtain ⟨sel, cs, hsel, hd⟩ := selectLoop_spec m demo favorRep ids
    (setToVector adj) (wasteDiff favorRep demo.dem demo.rep)
    ((setToVector adj).headI) coins
    (fun c hcL _ => hreg c (mem_setToVector.mp hcL))
  refine ⟨sel, cs, hsel, ?_⟩
  obtain ⟨c0, hc0, w0, hw0, hbw0⟩ := hex
  rcases hd with ⟨hall, _⟩ | ⟨hmem, hids, ws, hws, _, hall⟩
  · exact absurd (hall c0 (mem_setToVector.mpr hc0) (hsub hc0) w0 hw0)
      (not_le.mpr hbw0)
  · exact ⟨mem_setToVector.mp hmem, hids, ws, hws,
      fun c hcadj w hw => hall c (mem_setToVector.mpr hcadj) (hsub hcadj) w hw⟩

/-- Registry for the C9 counterexample: seed precinct 0 (10 Democratic
votes) with two free neighbors: 1 (5 Republican votes) and 2 (1 Republican
vote). -/
def gerryMap : VotingMap :=
  ⟨[⟨0, 10, 0, 1, {1, 2}⟩, ⟨1, 0, 5, 5, {0}⟩, ⟨2, 0, 1, 5, {0}⟩], by decide⟩

/-- Registry for the C9 witness: a single free frontier precinct whose
differential beats the empty district's seed differential. -/
def selMap : VotingMap :=
  ⟨[⟨1, 5, 0, 1, ∅⟩], by decide⟩

/-- C9 counterexample: growing a Republican-biased district from precinct 0,
both frontier differentials (-1 for precinct 1, 7 for precinct 2) are below
the running maximum's seed (the district's own differential, 9), so the
builder recurses into `adj.first()` = precinct 1 — NOT the maximal-
differential candidate 2 — as the final district `{0, 1}` shows. -/
theorem biased_builder_nonmaximal_pick :
    (createGerrymanderedDistrict gerryMap 4 ∅ ⟨0, 0, 0⟩ 0 3 true ∅ {0, 1, 2}
        []).map (fun t =>
          decide ((0 : Int) ∈ t.1 ∧ (1 : Int) ∈ t.1 ∧ (2 : Int) ∉ t.1)) =
        some true ∧
      selectNext gerryMap ⟨10, 0, 1⟩ true {1, 2} {1, 2} [] = some (1, []) ∧
      candDiff gerryMap ⟨10, 0, 1⟩ true 1 = some (-1) ∧
      candDiff gerryMap ⟨10, 0, 1⟩ true 2 = some 7 ∧
      wasteDiff true 10 0 = 9 :=
  ⟨by decide, by decide, by decide, by decide, by decide⟩

/-- C9 witness: with an empty district (seed differential 1) and a single
candidate of differential 4, the candidate is selected and is maximal. -/
theorem biased_selection_maximal_witness :
    ∃ sel cs, selectNext selMap ⟨0, 0, 0⟩ true {1} {1} [] = some (sel, cs) ∧
      sel ∈ ({1} : Finset Int) ∧ sel ∈ ({1} : Finset Int) ∧
      ∃ ws, candDiff selMap ⟨0, 0, 0⟩ true sel = some ws ∧
        ∀ c ∈ ({1} : Finset Int), ∀ w,
          candDiff selMap ⟨0, 0, 0⟩ true c = some w → w ≤ ws :=
  biased_selection_maximal_when_candidate_beats_base selMap ⟨0, 0, 0⟩ true
    {1} {1} [] (by decide) (by decide)
    ⟨1, by decide, 4, by decide, by decide⟩

/-- State evolution of a district-growing call: free ids only shrink, and
the district gains exactly the consumed free ids. -/
def Consumes (district ids district' ids' : Finset Int) : Prop :=
  ids' ⊆ ids ∧ district' = district ∪ (ids \ ids')

theorem consumes_refl (district ids : Finset Int) :
    Consumes district ids district ids :=
  ⟨subset_rfl, by rw [Finset.sdiff_self, Finset.union_empty]⟩

theorem consumes_trans {d i d1 i1 d2 i2 : Finset Int}
    (h1 : Consumes d i d1 i1) (h2 : Consumes d1 i1 d2 i2) :
    Consumes d i d2 i2 := by
  obtain ⟨hsub1, heq1⟩ := h1
  obtain ⟨hsub2, heq2⟩ := h2
  refine ⟨hsub2.trans hsub1, ?_⟩
  rw [heq2, heq1]
  ext x
  simp only [Finset.mem_union, Finset.mem_sdiff]
  constructor
  · rintro ((hx | ⟨hxi, hxn⟩) | ⟨hx1, hxn⟩)
    · exact Or.inl hx
    · exact Or.inr ⟨hxi, fun h => hxn (hsub2 h)⟩
    · exact Or.inr ⟨hsub1 hx1, hxn⟩
  · rintro (hx | ⟨hxi, hxn⟩)
    · exact Or.inl (Or.inl hx)
    · by_cases hx1 : x ∈ i1
      · exact Or.inr ⟨hx1, hxn⟩
      · exact Or.inl (Or.inr ⟨hxi, hx1⟩)

theorem randLoop_consumes
    {rec : Int → Finset Int → Int → Finset Int → List Nat →
      Option (Finset Int × Int × Finset Int × List Nat)}
    (hrec : ∀ c d p i r out, c ∈ i → rec c d p i r = some out →
      Consumes d i out.1 out.2.2.1) :
    ∀ (n : Nat) (L : List Int) (d : Finset Int) (p : Int) (i : Finset Int)
      (r : List Nat) (out),
      randLoop rec n L d p i r = some out → Consumes d i out.1 out.2.2.1 := by
  intro n
  induction n with
  | zero =>
    intro L d p i r out h
    cases L with
    | nil =>
      cases h
      exact consumes_refl d i
    | cons x xs => cases h
  | succ n ih =>
    intro L d p i r out h
    cases L with
    | nil =>
      cases h
      exact consumes_refl d i
    | cons x xs =>
      simp only [randLoop] at h
      split at h
      · split at h
        · cases h
        · rename_i d' p' i' r'' heq
          exact consumes_trans
            (hrec _ _ _ _ _ (d', p', i', r'') (by assumption) heq)
            (ih _ _ _ _ _ _ h)
      · exact ih _ _ _ _ _ _ h

theorem randLoop_total
    {rec : Int → Finset Int → Int → Finset Int → List Nat →
      Option (Finset Int × Int × Finset Int × List Nat)}
    {I0 : Finset Int}
    (hrec : ∀ c d p i r, c ∈ i → i ⊆ I0 →
      ∃ out, rec c d p i r = some out ∧ out.2.2.1 ⊆ i) :
    ∀ (n : Nat) (L : List Int) (d : Finset Int) (p : Int) (i : Finset Int)
      (r : List Nat), L.length = n → i ⊆ I0 →
      ∃ out, randLoop rec n L d p i r = some out ∧ out.2.2.1 ⊆ i := by
  intro n
  induction n with
  | zero =>
    intro L d p i r hlen hi
    cases L with
    | nil => exact ⟨(d, p, i, r), rfl, subset_rfl⟩
    | cons x xs => cases hlen
  | succ n ih =>
    intro L d p i r hlen hi
    cases L with
    | nil => cases hlen
    | cons x xs =>
      have hidx : (drawNat r).1 % (x :: xs).length < (x :: xs).length :=
        Nat.mod_lt _ (by simp)
      have herase : ((x :: xs).eraseIdx
          ((drawNat r).1 % (x :: xs).length)).length = n := by
        rw [List.length_eraseIdx, if_pos hidx]
        omega
      by_cases hc : (x :: xs).getD ((drawNat r).1 % (x :: xs).length) 0 ∈ i
      · obtain ⟨out1, hout1, hsub1⟩ := hrec _ d p i (drawNat r).2 hc hi
        obtain ⟨out, hout, hsub⟩ := ih _ out1.1 out1.2.1 out1.2.2.1
          out1.2.2.2 herase (hsub1.trans hi)
        refine ⟨out, ?_, hsub.trans hsub1⟩
        simp only [randLoop, if_pos hc, hout1]
        exact hout
      · obtain ⟨out, hout, hsub⟩ := ih _ d p i (drawNat r).2 herase hi
        refine ⟨out, ?_, hsub⟩
        simp only [randLoop, if_neg hc]
        exact hout

theorem sdiff_erase_of_mem {ids : Finset Int} {c : Int} (hc : c ∈ ids) :
    ids \ ids.erase c = {c} := by
  ext x
  simp only [Finset.mem_sdiff, Finset.mem_erase, Finset.mem_singleton]
  constructor
  · rintro ⟨hx, hne⟩
    by_contra hxc
    exact hne ⟨hxc, hx⟩
  · rintro rfl
    exact ⟨hc, fun h => h.1 rfl⟩

theorem crd_consumes (m : VotingMap) :
    ∀ (fuel : Nat) (district : Finset Int) (c : Int) (p maxPop : Int)
      (ids : Finset Int) (r : List Nat) (out),
      c ∈ ids →
      createRandomDistrict m fuel district c p maxPop ids r = some out →
      Consumes district ids out.1 out.2.2.1 := by
  intro fuel
  induction fuel with
  | zero => intro _ _ _ _ _ _ out _ h; cases h
  | succ fuel ih =>
    intro district c p maxPop ids r out hc h
    simp only [createRandomDistrict] at h
    split at h
    · cases h
      exact consumes_refl district ids
    · split at h
      · have hstep : Consumes district ids (insert c district) (ids.erase c) := by
          refine ⟨Finset.erase_subset c ids, ?_⟩
          rw [sdiff_erase_of_mem hc, Finset.insert_eq, Finset.union_comm]
        exact consumes_trans hstep
          (randLoop_consumes
            (fun c' d' p' i' r' out' hc' heq' =>
              ih d' c' p' maxPop i' r' out' hc' heq')
            _ _ _ _ _ _ _ h)
      · cases h

theorem crd_total (m : VotingMap) :
    ∀ (fuel : Nat) (district : Finset Int) (c : Int) (p maxPop : Int)
      (ids : Finset Int) (r : List Nat),
      c ∈ ids → ids.card < fuel →
      (∀ x ∈ ids, m.contains x = true) →
      ∃ out, createRandomDistrict m fuel district c p maxPop ids r =
          some out ∧ out.2.2.1 ⊆ ids ∧
        (¬ p ≥ maxPop → out.2.2.1 ⊆ ids.erase c) := by
  intro fuel
  induction fuel with
  | zero => intro _ _ _ _ _ _ hc hcard _; exact absurd hcard (Nat.not_lt_zero _)
  | succ fuel ih =>
    intro district c p maxPop ids r hc hcard hreg
    by_cases hbase : p ≥ maxPop
    · refine ⟨(district, p, ids, r), ?_, subset_rfl, fun hn => absurd hbase hn⟩
      simp only [createRandomDistrict, if_pos hbase]
    · have hdm : (m.getDemographic c).isSome :=
        getDemographic_isSome.mpr (hreg c hc)
      have hadj : (m.getAdjacentPrecincts c).isSome :=
        getAdjacentPrecincts_isSome.mpr (hreg c hc)
      cases hdm2 : m.getDemographic c with
      | none => rw [hdm2] at hdm; cases hdm
      | some dm =>
        cases hadj2 : m.getAdjacentPrecincts c with
        | none => rw [hadj2] at hadj; cases hadj
        | some adjSet =>
          have hrec : ∀ c' d' p' i' r', c' ∈ i' → i' ⊆ ids.erase c →
              ∃ out, createRandomDistrict m fuel d' c' p' maxPop i' r' =
                  some out ∧ out.2.2.1 ⊆ i' := by
            intro c' d' p' i' r' hc' hi'
            have hcard' : i'.card < fuel := by
              have h1 := Finset.card_le_card hi'
              have h2 : (ids.erase c).card = ids.card - 1 :=
                Finset.card_erase_of_mem hc
              have h3 : 1 ≤ ids.card := Finset.card_pos.mpr ⟨c, hc⟩
              omega
            obtain ⟨out, hout, hsub, _⟩ := ih d' c' p' maxPop i' r' hc' hcard'
              (fun x hx => hreg x (Finset.erase_subset c ids (hi' hx)))
            exact ⟨out, hout, hsub⟩
          obtain ⟨out, hout, hsub⟩ := randLoop_total hrec
            (setToVector adjSet).length (setToVector adjSet)
            (insert c district) (p + dm.pop) (ids.erase c) r rfl subset_rfl
          refine ⟨out, ?_, hsub.trans (Finset.erase_subset c ids),
            fun _ => hsub⟩
          simp only [createRandomDistrict, if_neg hbase, hdm2, hadj2]
          exact hout

theorem crd_seed (m : VotingMap) (c maxPop : Int) (ids : Finset Int)
    (r : List Nat) (hc : c ∈ ids) (hmax : 1 ≤ maxPop)
    (hreg : ∀ x ∈ ids, m.contains x = true) :
    ∃ out, createRandomDistrict m (ids.card + 1) ∅ c 0 maxPop ids r =
        some out ∧ out.2.2.1 ⊆ ids.erase c ∧ out.1 = ids \ out.2.2.1 ∧
      c ∈ out.1 := by
  obtain ⟨out, hout, _, hstrict⟩ := crd_total m (ids.card + 1) ∅ c 0 maxPop
    ids r hc (Nat.lt_succ_self _) hreg
  have hsub : out.2.2.1 ⊆ ids.erase c := hstrict (by omega)
  have hcons := crd_consumes m (ids.card + 1) ∅ c 0 maxPop ids r out hc hout
  have hdist : out.1 = ids \ out.2.2.1 := by
    rw [hcons.2, Finset.empty_union]
  refine ⟨out, hout, hsub, hdist, ?_⟩
  rw [hdist, Finset.mem_sdiff]
  exact ⟨hc, fun h => Finset.not_mem_erase c ids (hsub h)⟩

theorem mem_eraseIdx_of_ne :
    ∀ (l : List Int) (i : Nat) (y : Int), y ∈ l → y ≠ l.getD i 0 →
      y ∈ l.eraseIdx i := by
  intro l
  induction l with
  | nil => intro i y hy _; exact absurd hy (List.not_mem_nil y)
  | cons x xs ih =>
    intro i y hy hne
    cases i with
    | zero =>
      rcases List.mem_cons.mp hy with rfl | hy'
      · exact absurd rfl hne
      · exact hy'
    | succ i =>
      rcases List.mem_cons.mp hy with rfl | hy'
      · exact List.mem_cons_self y _
      · exact List.mem_cons_of_mem x (ih i y hy' hne)

theorem getD_mem_of_lt {l : List Int} {i : Nat} (h : i < l.length) :
    l.getD i 0 ∈ l := by
  rw [List.getD_eq_getElem l 0 h]
  exact List.getElem_mem h

theorem planLoopR_spec (m : VotingMap) (maxPop : Int) (hmax : 1 ≤ maxPop) :
    ∀ (n : Nat) (all : List Int) (districts : Finset (Finset Int))
      (ids : Finset Int) (r : List Nat),
      all.length = n →
      (∀ x ∈ ids, m.contains x = true) →
      ids ⊆ all.toFinset →
      (∀ d ∈ districts, d.Nonempty) →
      (∀ d ∈ districts, Disjoint d ids) →
      (∀ d1 ∈ districts, ∀ d2 ∈ districts, d1 ≠ d2 → Disjoint d1 d2) →
      ∃ districts' r',
        planLoopR m maxPop n all districts ids r = some (districts', ∅, r') ∧
        (∀ d ∈ districts', d.Nonempty) ∧
        (∀ d1 ∈ districts', ∀ d2 ∈ districts', d1 ≠ d2 → Disjoint d1 d2) ∧
        districts'.biUnion id = districts.biUnion id ∪ ids := by
  intro n
  induction n with
  | zero =>
    intro all districts ids r hlen hreg hsub hne hdisj hpair
    cases all with
    | cons x xs => cases hlen
    | nil =>
      have hids : ids = ∅ := by
        rw [← Finset.subset_empty]
        simpa using hsub
      refine ⟨districts, r, ?_, hne, hpair, by rw [hids, Finset.union_empty]⟩
      rw [hids]
      simp [planLoopR]
  | succ n ih =>
    intro all districts ids r hlen hreg hsub hne hdisj hpair
    by_cases hids : ids = ∅
    · cases all with
      | nil => cases hlen
      | cons x xs =>
        refine ⟨districts, r, ?_, hne, hpair, by rw [hids, Finset.union_empty]⟩
        rw [hids]
        simp [planLoopR]
    · cases all with
      | nil => cases hlen
      | cons x xs =>
        have hidx : (drawNat r).1 % (x :: xs).length < (x :: xs).length :=
          Nat.mod_lt _ (by simp)
        have herase : ((x :: xs).eraseIdx
            ((drawNat r).1 % (x :: xs).length)).length = n := by
          rw [List.length_eraseIdx, if_pos hidx]
          simp only [List.length_cons] at hlen ⊢
          omega
        by_cases hch : (x :: xs).getD ((drawNat r).1 % (x :: xs).length) 0 ∈ ids
        · obtain ⟨out, hout, hsubout, hdistout, hcout⟩ :=
            crd_seed m _ maxPop ids (drawNat r).2 hch hmax hreg
          have hd1sub : out.1 ⊆ ids := by
            rw [hdistout]
            exact Finset.sdiff_subset
          have hrec := ih ((x :: xs).eraseIdx
              ((drawNat r).1 % (x :: xs).length))
            (insert out.1 districts) out.2.2.1 out.2.2.2 herase
            (fun y hy => hreg y (Finset.erase_subset _ ids (hsubout hy)))
            (fun y hy => by
              have hyids : y ∈ ids := Finset.erase_subset _ ids (hsubout hy)
              have hync : y ≠ (x :: xs).getD
                  ((drawNat r).1 % (x :: xs).length) 0 := by
                intro hyc
                exact Finset.not_mem_erase _ ids (hyc ▸ hsubout hy)
              exact List.mem_toFinset.mpr
                (mem_eraseIdx_of_ne _ _ y
                  (List.mem_toFinset.mp (hsub hyids)) hync))
            (fun d hd => by
              rcases Finset.mem_insert.mp hd with rfl | hd'
              · exact ⟨_, hcout⟩
              · exact hne d hd')
            (fun d hd => by
              rcases Finset.mem_insert.mp hd with rfl | hd'
              · rw [hdistout]
                exact Finset.sdiff_disjoint
              · exact (hdisj d hd').mono_right
                  ((hsubout.trans (Finset.erase_subset _ ids)))
            )
            (fun d1 hd1 d2 hd2 hne12 => by
              rcases Finset.mem_insert.mp hd1 with rfl | hd1' <;>
                rcases Finset.mem_insert.mp hd2 with rfl | hd2'
              · exact absurd rfl hne12
              · exact ((hdisj d2 hd2').mono_right hd1sub).symm
              · exact (hdisj d1 hd1').mono_right hd1sub
              · exact hpair d1 hd1' d2 hd2' hne12)
          obtain ⟨districts', r', heq, hne', hpair', hunion⟩ := hrec
          refine ⟨districts', r', ?_, hne', hpair', ?_⟩
          · simp only [planLoopR, if_neg hids, if_pos hch, hout]
            exact heq
          · rw [hunion, Finset.biUnion_insert]
            have : out.1 ∪ out.2.2.1 = ids := by
              rw [hdistout]
              exact Finset.sdiff_union_of_subset
                (hsubout.trans (Finset.erase_subset _ ids))
            calc id out.1 ∪ districts.biUnion id ∪ out.2.2.1
                = districts.biUnion id ∪ (out.1 ∪ out.2.2.1) := by
                  show out.1 ∪ districts.biUnion id ∪ out.2.2.1 = _
                  rw [Finset.union_comm out.1, Finset.union_assoc]
              _ = districts.biUnion id ∪ ids := by rw [this]
        · have hrec := ih ((x :: xs).eraseIdx
              ((drawNat r).1 % (x :: xs).length)) districts ids (drawNat r).2
            herase hreg
            (fun y hy => by
              have hync : y ≠ (x :: xs).getD
                  ((drawNat r).1 % (x :: xs).length) 0 := by
                intro hyc
                exact hch (hyc ▸ hy)
              exact List.mem_toFinset.mpr
                (mem_eraseIdx_of_ne _ _ y
                  (List.mem_toFinset.mp (hsub hy)) hync))
            hne hdisj hpair
          obtain ⟨districts', r', heq, hne', hpair', hunion⟩ := hrec
          refine ⟨districts', r', ?_, hne', hpair', hunion⟩
          simp only [planLoopR, if_neg hids, if_neg hch]
          exact heq

/-- C10 (amended): over registered free ids, and provided the per-district
population budget `totalPop / totalDistricts` is at least 1,
`createRandomPlanHelper` terminates normally with the free-id set emptied,
and the produced districts are non-empty, pairwise disjoint, and union
exactly the initial free-id set (each precinct enters exactly one district,
and only while it is free).  Without the budget hypothesis, or with an
unregistered free id, the source crashes instead (see the counterexample). -/
theorem random_plan_partitions_free_ids :
    ∀ (m : VotingMap) (totalDistricts : Int) (ids : Finset Int)
      (r : List Nat),
      ids.Nonempty →
      (∀ x ∈ ids, m.contains x = true) →
      1 ≤ Int.tdiv m.totalPop totalDistricts →
      ∃ districts r',
        createRandomPlanHelper m totalDistricts ids r =
            some (districts, ∅, r') ∧
          (∀ d ∈ districts, d.Nonempty) ∧
          (∀ d1 ∈ districts, ∀ d2 ∈ districts, d1 ≠ d2 → Disjoint d1 d2) ∧
          districts.biUnion id = ids := by
  intro m totalDistricts ids r _ hreg hmax
  have htd : totalDistricts ≠ 0 := by
    intro h0
    rw [h0, Int.tdiv_zero] at hmax
    exact absurd hmax (by norm_num)
  obtain ⟨districts', r', heq, hne', hpair', hunion⟩ :=
    planLoopR_spec m _ hmax (setToVector ids).length (setToVector ids) ∅ ids
      r rfl hreg (by rw [setToVector_toFinset])
      (fun d hd => absurd hd (Finset.not_mem_empty d))
      (fun d hd => absurd hd (Finset.not_mem_empty d))
      (fun d1 hd1 => absurd hd1 (Finset.not_mem_empty d1))
  refine ⟨districts', r', ?_, hne', hpair', ?_⟩
  · rw [createRandomPlanHelper, if_neg htd]
    exact heq
  · rw [hunion]
    simp

/-- C10 witness: over `tinyMap` with budget `2 / 2 = 1`, the helper
partitions the free ids `{1, 2}`. -/
theorem random_plan_partitions_free_ids_witness :
    ∃ districts r',
      createRandomPlanHelper tinyMap 2 {1, 2} [0, 0, 0, 0] =
          some (districts, ∅, r') ∧
        (∀ d ∈ districts, d.Nonempty) ∧
        (∀ d1 ∈ districts, ∀ d2 ∈ districts, d1 ≠ d2 → Disjoint d1 d2) ∧
        districts.biUnion id = {1, 2} :=
  random_plan_partitions_free_ids tinyMap 2 {1, 2} [0, 0, 0, 0]
    (by decide) (by decide) (by decide)

/-- C10 counterexample: with four districts requested over three people the
budget is `3 / 4 = 0`, every district is built empty, no free id is ever
consumed, and the candidate vector runs out with free ids left —
`randomInteger(0, -1)` errors out (`none`); an unregistered free id likewise
crashes the lookup.  The helper does not empty the free-id set or produce a
partition there. -/
theorem random_plan_helper_crashes :
    createRandomPlanHelper pathMap 4 {1, 2, 3} [] = none ∧
      createRandomPlanHelper tinyMap 1 {5} [] = none :=
  ⟨by decide, by decide⟩
